import Mathlib

/-!
Verification of the text-buffer / syntax-highlighting core of the `vine`
editor (`src/vine.c`).  Rows, the highlight scanner, the cross-row
multi-line-comment propagation, the document operations, search and the
tab column mapping are shallowly embedded; C byte strings become
`List Char`, the `int` positions that may legitimately be negative become
`Int`, and reading the NUL terminator one past the end of a render string
becomes `strAt` returning `Char.ofNat 0`.
-/

namespace Vine

/-- Highlight classes, mirroring `enum editorHighlight`. -/
inductive EHighlight where
  | HL_NORMAL
  | HL_COMMENT
  | HL_MLCOMMENT
  | HL_KEYWORD1
  | HL_KEYWORD2
  | HL_STRING
  | HL_NUMBER
  | HL_MATCH
  deriving DecidableEq, BEq, Repr

open EHighlight

def HL_HIGHLIGHT_NUMBERS : Nat := 1

def HL_HIGHLIGHT_STRINGS : Nat := 2

/-- A syntax-registry entry, mirroring `struct editorSyntax`.  `scs`, `mcs`,
`mce` are the single-line, multi-line-start and multi-line-end comment
markers. -/
structure SyntaxDef where
  filetype : List Char
  filematch : List (List Char)
  keywords : List (List Char)
  scs : List Char
  mcs : List Char
  mce : List Char
  flags : Nat
  deriving DecidableEq, BEq

/-- One row, mirroring `erow`; `size` and `rsize` are the lengths of
`chars` and `render`. -/
structure Erow where
  idx : Nat
  chars : List Char
  render : List Char
  hl : List EHighlight
  hl_open_comment : Bool
  deriving DecidableEq, BEq

/-- The parts of `struct editorConfig` the buffer core touches. -/
structure EditorState where
  rows : List Erow
  dirty : Nat
  cx : Nat
  cy : Nat
  rowoff : Nat
  syn : Option SyntaxDef
  deriving DecidableEq, BEq

/-- Reading `render[i]`; index `rsize` is the NUL terminator of the C
string, indices beyond are never read by the embedded code. -/
def strAt (s : List Char) (i : Nat) : Char := s.getD i (Char.ofNat 0)

/-- Model of `strncmp(&s[i], pat, pat.length) == 0`: compare until a
mismatch or until a NUL in `pat` ends the comparison early. -/
def strncmpAt (s : List Char) (i : Nat) (pat : List Char) : Bool :=
  match pat with
  | [] => true
  | p :: ps => strAt s i == p && (p == Char.ofNat 0 || strncmpAt s (i + 1) ps)

/-- Characters matched by C `isspace`. -/
def isSpaceChar (c : Char) : Bool :=
  c == ' ' || c == '\t' || c == '\n' || c == Char.ofNat 11 || c == Char.ofNat 12 || c == '\r'

/-- The bytes of the C separator literal; the UTF-8 acute accent in the
source stores the two bytes 0xC2 and 0xB4. -/
def sepList : List Char :=
  [',', '.', '(', ')', '+', '-', '/', '*', Char.ofNat 94, '=', '@', '#', Char.ofNat 126,
   '&', '%', '$', Char.ofNat 96, Char.ofNat 0xC2, Char.ofNat 0xB4, '<', '>', '[', ']',
   Char.ofNat 123, Char.ofNat 125, '!', Char.ofNat 92, ':', '|', ';', '?']

/-- Mirrors `is_separator`: whitespace, NUL, or one of the punctuation
bytes (`strchr` also finds NUL at the literal's terminator). -/
def is_separator (c : Char) : Bool :=
  isSpaceChar c || c == Char.ofNat 0 || sepList.contains c

/-- Mirrors `memset(&hl[i], v, len)` on an `unsigned char` array (all
uses in the scanner stay within the array). -/
def setRange (hl : List EHighlight) (i len : Nat) (v : EHighlight) : List EHighlight :=
  hl.mapIdx (fun k h => if i ≤ k && k < i + len then v else h)

/-- The keyword loop of `editorUpdateSyntax` (`for (j = 0; keywords[j]; j++)`):
return the length of the first matching keyword together with its
secondary-class flag, or `none` when no keyword matches at `i`. -/
def kwFind (kws : List (List Char)) (render : List Char) (i : Nat) : Option (Nat × Bool) :=
  match kws with
  | [] => none
  | kw :: rest =>
    let kw2 := kw.getD (kw.length - 1) (Char.ofNat 0) == '|'
    let klen := if kw2 then kw.length - 1 else kw.length
    if strncmpAt render i (kw.take klen) && is_separator (strAt render (i + klen)) then
      some (klen, kw2)
    else kwFind rest render i

/-- The scan loop of `editorUpdateSyntax` over one render string.  State:
position `i`, the highlight array written so far, `prevSep`, the open
quote character (`Char.ofNat 0` when not in a string, as the C `int`),
and `inComment`.  The loop advances `i` every iteration for every
registry keyword list, so `render.length + 1` fuel always suffices
there; fuel only guards pathological empty keywords. -/
def scanGo (sd : SyntaxDef) (render : List Char) :
    Nat → Nat → List EHighlight → Bool → Char → Bool → List EHighlight × Bool
  | 0, _, hl, _, _, inComment => (hl, inComment)
  | fuel + 1, i, hl, prevSep, inString, inComment =>
    if i < render.length then
      let c := strAt render i
      let prevHl := if i > 0 then hl.getD (i - 1) HL_NORMAL else HL_NORMAL
      if sd.scs.length > 0 && inString == Char.ofNat 0 && !inComment &&
          strncmpAt render i sd.scs then
        (setRange hl i (render.length - i) HL_COMMENT, inComment)
      else if sd.mcs.length > 0 && sd.mce.length > 0 && inString == Char.ofNat 0 &&
          inComment then
        let hl1 := hl.set i HL_MLCOMMENT
        if strncmpAt render i sd.mce then
          scanGo sd render fuel (i + sd.mce.length) (setRange hl1 i sd.mce.length HL_MLCOMMENT)
            true inString false
        else
          scanGo sd render fuel (i + 1) hl1 prevSep inString true
      else if sd.mcs.length > 0 && sd.mce.length > 0 && inString == Char.ofNat 0 &&
          strncmpAt render i sd.mcs then
        scanGo sd render fuel (i + sd.mcs.length) (setRange hl i sd.mcs.length HL_MLCOMMENT)
          prevSep inString true
      else if (sd.flags &&& HL_HIGHLIGHT_STRINGS) != 0 && inString != Char.ofNat 0 then
        let hl1 := hl.set i HL_STRING
        if c == Char.ofNat 92 && i + 1 < render.length then
          scanGo sd render fuel (i + 2) (hl1.set (i + 1) HL_STRING) prevSep inString inComment
        else
          scanGo sd render fuel (i + 1) hl1 true
            (if c == inString then Char.ofNat 0 else inString) inComment
      else if (sd.flags &&& HL_HIGHLIGHT_STRINGS) != 0 &&
          (c == '"' || c == Char.ofNat 39) then
        scanGo sd render fuel (i + 1) (hl.set i HL_STRING) prevSep c inComment
      else if (sd.flags &&& HL_HIGHLIGHT_NUMBERS) != 0 &&
          ((c.isDigit && (prevSep || prevHl == HL_NUMBER)) ||
           ((c == '.' || c == 'x' || c == 'a' || c == 'b' || c == 'c' || c == 'd' ||
             c == 'e' || c == 'f') && prevHl == HL_NUMBER)) then
        scanGo sd render fuel (i + 1) (hl.set i HL_NUMBER) false inString inComment
      else if prevSep then
        match kwFind sd.keywords render i with
        | some (klen, kw2) =>
          scanGo sd render fuel (i + klen)
            (setRange hl i klen (if kw2 then HL_KEYWORD2 else HL_KEYWORD1))
            false inString inComment
        | none =>
          scanGo sd render fuel (i + 1) hl (is_separator c) inString inComment
      else
        scanGo sd render fuel (i + 1) hl (is_separator c) inString inComment
    else (hl, inComment)

/-- One row's highlight recompute under an active syntax: the fresh
`HL_NORMAL` array (`realloc` + `memset`), then the scan seeded with the
carried-in comment flag; returns the array and `in_comment` at end of
scan. -/
def scanRow (sd : SyntaxDef) (inComment : Bool) (render : List Char) :
    List EHighlight × Bool :=
  scanGo sd render (render.length + 1) 0 (List.replicate render.length HL_NORMAL)
    true (Char.ofNat 0) inComment

/-- Reading `E.row[idx - 1].hl_open_comment` (guarded by `idx > 0` at the
call site). -/
def prevFlag (rows : List Erow) (idx : Nat) : Bool :=
  match rows[idx - 1]? with
  | some r => r.hl_open_comment
  | none => false

/-- Mirrors `editorUpdateSyntax`: recompute row `pos`, then, when the
carried-out flag changed and `row->idx + 1 < E.numrows`, recurse into the
row at `row->idx + 1`.  `numrows` is passed explicitly because
`editorInsertRow` runs the update before incrementing `E.numrows`.  Fuel
bounds the cascade depth; `rows.length + 1` suffices whenever every
row's `idx` equals its position. -/
def updateSyntaxGo (syn : Option SyntaxDef) (numrows : Nat) :
    Nat → List Erow → Nat → List Erow
  | 0, rows, _ => rows
  | fuel + 1, rows, pos =>
    match rows[pos]? with
    | none => rows
    | some row =>
      match syn with
      | none => rows.set pos { row with hl := List.replicate row.render.length HL_NORMAL }
      | some sd =>
        let inC := decide (row.idx > 0) && prevFlag rows row.idx
        let res := scanRow sd inC row.render
        let changed := row.hl_open_comment != res.2
        let rows' := rows.set pos { row with hl := res.1, hl_open_comment := res.2 }
        if changed && row.idx + 1 < numrows then
          updateSyntaxGo syn numrows fuel rows' (row.idx + 1)
        else rows'

/-- `editorUpdateSyntax` on the row at `pos` with `E.numrows` equal to
the row count. -/
def editorUpdateSyntax (syn : Option SyntaxDef) (rows : List Erow) (pos : Nat) : List Erow :=
  updateSyntaxGo syn rows.length (rows.length + 1) rows pos

/-- Tab expansion of `editorUpdateRow`: a tab becomes spaces up to the
next multiple of `E.tab_stop`, other characters copy through. -/
def renderGo (ts : Nat) : List Char → Nat → List Char
  | [], _ => []
  | c :: rest, idx =>
    if c == '\t' then
      let pad := ts - idx % ts
      List.replicate pad ' ' ++ renderGo ts rest (idx + pad)
    else c :: renderGo ts rest (idx + 1)

/-- The render string of a row's raw characters. -/
def renderChars (ts : Nat) (chars : List Char) : List Char :=
  renderGo ts chars 0

/-- Mirrors `editorUpdateRow` on the row at `pos`: rebuild `render`,
then run `editorUpdateSyntax` with the given `E.numrows`. -/
def editorUpdateRowAt (ts : Nat) (syn : Option SyntaxDef) (numrows : Nat)
    (rows : List Erow) (pos : Nat) : List Erow :=
  match rows[pos]? with
  | none => rows
  | some row =>
    let rows' := rows.set pos { row with render := renderChars ts row.chars }
    updateSyntaxGo syn numrows (rows'.length + 1) rows' pos

/-- Mirrors `editorInsertRow`; `at_` is the C `int` argument.  The new
row's syntax update runs while `E.numrows` is still the old count. -/
def editorInsertRow (ts : Nat) (st : EditorState) (at_ : Int) (s : List Char) : EditorState :=
  if at_ < 0 || at_ > (st.rows.length : Int) then st
  else
    let a := at_.toNat
    let newRow : Erow :=
      { idx := a, chars := s, render := [], hl := [], hl_open_comment := false }
    let rows1 := st.rows.take a ++ newRow ::
      (st.rows.drop a).map (fun r => { r with idx := r.idx + 1 })
    let rows2 := editorUpdateRowAt ts st.syn st.rows.length rows1 a
    { st with rows := rows2, dirty := st.dirty + 1 }

/-- Mirrors `editorDelRow`. -/
def editorDelRow (st : EditorState) (at_ : Int) : EditorState :=
  if at_ < 0 || at_ ≥ (st.rows.length : Int) then st
  else
    let a := at_.toNat
    { st with
      rows := st.rows.take a ++ (st.rows.drop (a + 1)).map (fun r => { r with idx := r.idx - 1 }),
      dirty := st.dirty + 1 }

/-- Mirrors `editorRowInsertChar` on the row at `pos`: an out-of-range
column is clamped to the row's end, the character is inserted, the row
re-rendered and re-highlighted, and the dirty counter bumped. -/
def editorRowInsertChar (ts : Nat) (st : EditorState) (pos : Nat) (at_ : Int) (c : Char) :
    EditorState :=
  match st.rows[pos]? with
  | none => st
  | some row =>
    let a : Nat := if at_ < 0 || at_ > (row.chars.length : Int) then row.chars.length
                   else at_.toNat
    let rows1 := st.rows.set pos { row with chars := row.chars.take a ++ c :: row.chars.drop a }
    { st with rows := editorUpdateRowAt ts st.syn rows1.length rows1 pos,
              dirty := st.dirty + 1 }

/-- Mirrors `editorRowAppendString` on the row at `pos`. -/
def editorRowAppendString (ts : Nat) (st : EditorState) (pos : Nat) (s : List Char) :
    EditorState :=
  match st.rows[pos]? with
  | none => st
  | some row =>
    let rows1 := st.rows.set pos { row with chars := row.chars ++ s }
    { st with rows := editorUpdateRowAt ts st.syn rows1.length rows1 pos,
              dirty := st.dirty + 1 }

/-- Mirrors `editorRowDelChar` on the row at `pos`: out of range is a
no-op, otherwise delete, re-render, bump dirty. -/
def editorRowDelChar (ts : Nat) (st : EditorState) (pos : Nat) (at_ : Int) : EditorState :=
  match st.rows[pos]? with
  | none => st
  | some row =>
    if at_ < 0 || at_ ≥ (row.chars.length : Int) then st
    else
      let a := at_.toNat
      let rows1 := st.rows.set pos
        { row with chars := row.chars.take a ++ row.chars.drop (a + 1) }
      { st with rows := editorUpdateRowAt ts st.syn rows1.length rows1 pos,
                dirty := st.dirty + 1 }

/-- Mirrors `editorInsertChar`: append an empty row when the cursor sits
one past the last row, then insert at the cursor. -/
def editorInsertChar (ts : Nat) (st : EditorState) (c : Char) : EditorState :=
  let st1 := if st.cy == st.rows.length
             then editorInsertRow ts st (st.rows.length : Int) [] else st
  let st2 := editorRowInsertChar ts st1 st1.cy (st1.cx : Int) c
  { st2 with cx := st2.cx + 1 }

/-- Mirrors `editorInsertNewline`: at column 0 insert an empty row before
the current one, otherwise split the row at the cursor and re-render the
truncated prefix. -/
def editorInsertNewline (ts : Nat) (st : EditorState) : EditorState :=
  if st.cx == 0 then
    let st1 := editorInsertRow ts st (st.cy : Int) []
    { st1 with cy := st1.cy + 1, cx := 0 }
  else
    match st.rows[st.cy]? with
    | none => st
    | some row =>
      let st1 := editorInsertRow ts st ((st.cy : Int) + 1) (row.chars.drop st.cx)
      match st1.rows[st.cy]? with
      | none => st1
      | some row2 =>
        let rows' := st1.rows.set st.cy { row2 with chars := row2.chars.take st.cx }
        let rows'' := editorUpdateRowAt ts st1.syn rows'.length rows' st.cy
        { st1 with rows := rows'', cy := st.cy + 1, cx := 0 }

/-- Mirrors `editorDelChar`: backspace inside a row deletes the previous
character; at column 0 it joins the row into the previous one. -/
def editorDelChar (ts : Nat) (st : EditorState) : EditorState :=
  if st.cy == st.rows.length then st
  else if st.cx == 0 && st.cy == 0 then st
  else
    match st.rows[st.cy]? with
    | none => st
    | some row =>
      if st.cx > 0 then
        let st1 := editorRowDelChar ts st st.cy ((st.cx : Int) - 1)
        { st1 with cx := st.cx - 1 }
      else
        match st.rows[st.cy - 1]? with
        | none => st
        | some prow =>
          let st1 := editorRowAppendString ts st (st.cy - 1) row.chars
          let st2 := editorDelRow st1 (st.cy : Int)
          { st2 with cy := st.cy - 1, cx := prow.chars.length }

/-- Mirrors `editorRowsToString`: each row's raw characters followed by
one newline, in row order. -/
def editorRowsToString : List Erow → List Char
  | [] => []
  | r :: rest => r.chars ++ '\n' :: editorRowsToString rest

/-- Mirrors the `getline` loop of `editorOpen`: cut the content into
chunks, each ending at a newline (the final chunk may lack one). -/
def getlineSplit : List Char → List (List Char)
  | [] => []
  | c :: rest =>
    if c == '\n' then [c] :: getlineSplit rest
    else
      match getlineSplit rest with
      | [] => [[c]]
      | l :: ls => (c :: l) :: ls

/-- Mirrors the `while (linelen > 0 && ...) linelen--` loop of
`editorOpen`: drop every trailing newline or carriage return. -/
def stripCrNl (l : List Char) : List Char :=
  (l.reverse.dropWhile (fun c => c == '\n' || c == '\r')).reverse

/-- Model of `strncmp`-style literal match of a whole pattern at the head
of a list. -/
def isPfx : List Char → List Char → Bool
  | [], _ => true
  | _ :: _, [] => false
  | a :: as, b :: bs => a == b && isPfx as bs

/-- Model of `strstr`: index of the first occurrence of `needle` in
`hay`, or `none`. -/
def strstrIdx (hay needle : List Char) : Option Nat :=
  if isPfx needle hay then some 0
  else
    match hay with
    | [] => none
    | _ :: t => (strstrIdx t needle).map (· + 1)

/-- Model of `strrchr(name, '.')`: the suffix of `name` starting at its
last dot, or `none` when `name` has no dot. -/
def strrchrDot : List Char → Option (List Char)
  | [] => none
  | c :: rest =>
    match strrchrDot rest with
    | some r => some r
    | none => if c == '.' then some (c :: rest) else none

/-- One pattern test of `editorSelectSyntaxHighlight`: a pattern starting
with a dot is compared with `strcmp` against the filename's last-dot
suffix, any other pattern is searched in the filename with `strstr`. -/
def matchPatternC (filename pat : List Char) : Bool :=
  if pat.head? == some '.' then
    match strrchrDot filename with
    | some e => e == pat
    | none => false
  else (strstrIdx filename pat).isSome

/-- The entry loop of `editorSelectSyntaxHighlight`: the first registry
entry one of whose patterns matches wins. -/
def selectFrom (filename : List Char) : List SyntaxDef → Option SyntaxDef
  | [] => none
  | s :: rest =>
    if s.filematch.any (fun p => matchPatternC filename p) then some s
    else selectFrom filename rest

/-- Mirrors `editorRowCxToRx`: walk the first `cx` raw characters
accumulating rendered width, tabs advancing to the next tab stop. -/
def cxToRxGo (ts : Nat) : List Char → Nat → Nat → Nat
  | _, 0, rx => rx
  | [], _ + 1, rx => rx
  | c :: rest, j + 1, rx =>
    cxToRxGo ts rest j (if c == '\t' then rx + (ts - 1) - rx % ts + 1 else rx + 1)

def editorRowCxToRx (ts : Nat) (chars : List Char) (cx : Nat) : Nat :=
  cxToRxGo ts chars cx 0

/-- Mirrors `editorRowRxToCx`: first buffer column whose cumulative
rendered width exceeds the target, else the row size. -/
def rxToCxGo (ts : Nat) : List Char → Nat → Nat → Nat → Nat
  | [], _, _, cx => cx
  | c :: rest, rx, cur, cx =>
    let cur' := if c == '\t' then cur + (ts - 1) - cur % ts + 1 else cur + 1
    if rx < cur' then cx else rxToCxGo ts rest rx cur' (cx + 1)

def editorRowRxToCx (ts : Nat) (chars : List Char) (rx : Nat) : Nat :=
  rxToCxGo ts chars rx 0 0

/-- Mirrors `editorOpen`: select a syntax for the filename, then insert
one row per line of the content, each line stripped of trailing newline
and carriage-return characters; `dirty` resets to zero. -/
def editorOpen (ts : Nat) (filename content : List Char) (registry : List SyntaxDef) :
    EditorState :=
  let st0 : EditorState :=
    { rows := [], dirty := 0, cx := 0, cy := 0, rowoff := 0,
      syn := selectFrom filename registry }
  let st1 := ((getlineSplit content).map stripCrNl).foldl
    (fun st l => editorInsertRow ts st (st.rows.length : Int) l) st0
  { st1 with dirty := 0 }

def BACKSPACE : Nat := 127

def ARROW_LEFT : Nat := 1000

def ARROW_RIGHT : Nat := 1001

def ARROW_UP : Nat := 1002

def ARROW_DOWN : Nat := 1003

/-- The static locals of `editorFindCallback`. -/
structure FindState where
  last_match : Int
  direction : Int
  saved_hl_line : Nat
  saved_hl : Option (List EHighlight)
  deriving DecidableEq, BEq

/-- Mirrors `memcpy(dst, src, n)` on highlight arrays. -/
def memcpyPfx (dst src : List EHighlight) (n : Nat) : List EHighlight :=
  src.take n ++ dst.drop n

/-- The copy-back at the top of `editorFindCallback`: when a previous
match saved a highlight slice, write it back over that row's first
`rsize` entries and clear the save. -/
def findRestore (st : EditorState) (fs : FindState) : EditorState × FindState :=
  match fs.saved_hl with
  | none => (st, fs)
  | some saved =>
    let st' :=
      match st.rows[fs.saved_hl_line]? with
      | none => st
      | some row =>
        let row' := { row with hl := memcpyPfx row.hl saved row.render.length }
        { st with rows := st.rows.set fs.saved_hl_line row' }
    (st', { fs with saved_hl := none })

/-- The scan loop of `editorFindCallback`: step `current` by the
direction with wrap-around, return the first row whose render string
contains the query, together with the match index. -/
def findScan (rows : List Erow) (query : List Char) (dir : Int) :
    Nat → Int → Option (Int × Nat × Erow)
  | 0, _ => none
  | i + 1, current =>
    let cur1 := current + dir
    let cur2 : Int :=
      if cur1 == -1 then (rows.length : Int) - 1
      else if cur1 == (rows.length : Int) then 0 else cur1
    match rows[cur2.toNat]? with
    | none => none
    | some row =>
      match strstrIdx row.render query with
      | some mIdx => some (cur2, mIdx, row)
      | none => findScan rows query dir i cur2

/-- Mirrors `editorFindCallback`: restore any saved highlight, handle the
key, scan for the next match, and on a hit move the cursor, save the
matched row's highlight slice and overwrite the matched span with
`HL_MATCH`. -/
def editorFindCallback (ts : Nat) (st : EditorState) (fs : FindState)
    (query : List Char) (key : Nat) : EditorState × FindState :=
  let p := findRestore st fs
  let st1 := p.1
  let fs1 := p.2
  if key == 13 || key == 27 then
    (st1, { fs1 with last_match := -1, direction := 1 })
  else
    let fs2 :=
      if key == ARROW_RIGHT || key == ARROW_DOWN then { fs1 with direction := 1 }
      else if key == ARROW_LEFT || key == ARROW_UP then { fs1 with direction := -1 }
      else { fs1 with last_match := -1, direction := 1 }
    let fs3 := if fs2.last_match == -1 then { fs2 with direction := 1 } else fs2
    match findScan st1.rows query fs3.direction st1.rows.length fs3.last_match with
    | none => (st1, fs3)
    | some (current, mIdx, row) =>
      let saved := row.hl.take row.render.length
      let newHl := setRange row.hl mIdx query.length HL_MATCH
      ({ st1 with
          rows := st1.rows.set current.toNat { row with hl := newHl },
          cy := current.toNat,
          cx := editorRowRxToCx ts row.chars mIdx,
          rowoff := st1.rows.length },
       { fs3 with last_match := current, saved_hl_line := current.toNat,
                  saved_hl := some saved })

/-- The C/C++ entry of `HLDB`. -/
def C_HL : SyntaxDef :=
  { filetype := "C/C++".toList,
    filematch := [".c", ".h", ".cpp", ".hpp", ".cc", ".hh", ".cxx", ".hxx"].map String.toList,
    keywords :=
      (["auto", "break", "case", "const", "continue", "default", "do", "else", "enum",
        "extern", "for", "goto", "if", "register", "return", "sizeof", "static", "struct",
        "switch", "typedef", "union", "volatile", "while", "__asm__", "NULL", "alignas",
        "alignof", "and", "and_eq", "asm", "bitand", "bitor", "class", "compl", "constexpr",
        "const_cast", "deltype", "delete", "dynamic_cast", "explicit", "export", "false",
        "friend", "inline", "mutable", "using", "namespace", "new", "noexcept", "not",
        "not_eq", "nullptr", "operator", "or", "or_eq", "private", "protected", "public",
        "reinterpret_cast", "static_assert", "static_cast", "template", "this",
        "thread_local", "throw", "true", "try", "typeid", "typename", "virtual",
        "xor", "xor_eq", "#define", "#include", "#if", "ifdef", "#ifndef",
        "#endif", "#error", "#warning", "#pragma",
        "int|", "long|", "double|", "float|", "char|", "unsigned|", "signed|",
        "void|", "short|", "auto|", "bool|"]).map String.toList,
    scs := "//".toList, mcs := "/*".toList, mce := "*/".toList,
    flags := HL_HIGHLIGHT_NUMBERS ||| HL_HIGHLIGHT_STRINGS }

/-- The Golang entry of `HLDB`. -/
def GO_HL : SyntaxDef :=
  { filetype := "Golang".toList,
    filematch := [".go"].map String.toList,
    keywords :=
      (["if", "else", "switch", "case", "func", "then", "for", "var", "type", "interface",
        "const", "range", "return", "struct", "default", "iota", "nil", "package", "import",
        "map", "break", "continue",
        "int|", "int8|", "int16|", "int32|", "int64|", "uint|", "uint8|", "uint16|",
        "uint32|", "uint64|", "float32|", "float64|", "byte|", "rune|", "bool|", "string|",
        "complex64|", "complex128|", "any|", "error|", "comparable|"]).map String.toList,
    scs := "//".toList, mcs := "/*".toList, mce := "*/".toList,
    flags := HL_HIGHLIGHT_NUMBERS ||| HL_HIGHLIGHT_STRINGS }

/-- The Python entry of `HLDB`. -/
def PY_HL : SyntaxDef :=
  { filetype := "Python".toList,
    filematch := [".py", "pyi", ".xpy", "pyx", ".pyw", ".ipynb"].map String.toList,
    keywords :=
      (["and", "as", "assert", "break", "class", "continue", "def", "del", "elif",
        "else", "except", "exec", "finally", "for", "from", "global", "if", "import",
        "in", "is", "lambda", "not", "or", "pass", "print", "raise", "return", "try",
        "while", "with", "yield", "async", "await", "nonlocal", "range", "xrange",
        "reduce", "map", "filter", "all", "any", "sum", "dir", "abs", "breakpoint",
        "compile", "delattr", "divmod", "format", "eval", "getattr", "hasattr",
        "hash", "help", "id", "input", "isinstance", "issubclass", "len", "locals",
        "max", "min", "next", "open", "pow", "repr", "reversed", "round", "setattr",
        "slice", "sorted", "super", "vars", "zip", "__import__", "reload", "raw_input",
        "execfile", "file", "cmp", "basestring",
        "buffer|", "bytearray|", "bytes|", "complex|", "float|", "frozenset|", "int|",
        "list|", "long|", "None|", "set|", "str|", "chr|", "tuple|", "bool|", "False|",
        "True|", "type|", "unicode|", "dict|", "ascii|", "bin|", "callable|",
        "classmethod|", "enumerate|", "hex|", "oct|", "ord|", "iter|", "memoryview|",
        "object|", "property|", "staticmethod|", "unichr|"]).map String.toList,
    scs := "#".toList, mcs := "\"\"\"".toList, mce := "\"\"\"".toList,
    flags := HL_HIGHLIGHT_NUMBERS ||| HL_HIGHLIGHT_STRINGS }

/-- The Rust entry of `HLDB`. -/
def RUST_HL : SyntaxDef :=
  { filetype := "Rust".toList,
    filematch := [".rs"].map String.toList,
    keywords :=
      (["as", "async", "await", "const", "crate", "dyn", "enum", "extern", "fn", "impl",
        "let", "mod", "move", "mut", "pub", "ref", "Self", "static", "struct", "super",
        "trait", "type", "union", "unsafe", "use", "where", "break", "continue", "else",
        "for", "if", "in", "loop", "match", "return", "while",
        "i8|", "i16|", "i32|", "i64|", "i128|", "isize|", "u8|", "u16|", "u32|", "u64|",
        "u128|", "usize|", "f32|", "f64|", "bool|", "char|", "Box|", "Option|", "Some|",
        "None|", "Result|", "Ok|", "Err|", "String|", "Vec|", "let|", "const|", "mod|",
        "struct|", "enum|", "trait|", "union|", "self|", "true|", "false|"]).map String.toList,
    scs := "//".toList, mcs := "/*".toList, mce := "*/".toList,
    flags := HL_HIGHLIGHT_NUMBERS ||| HL_HIGHLIGHT_STRINGS }

/-- The highlighting database `HLDB`, in registry order. -/
def HLDB : List SyntaxDef := [C_HL, GO_HL, PY_HL, RUST_HL]

/-! ### Length and projection lemmas about the scanner -/

theorem setRange_length (hl : List EHighlight) (i len : Nat) (v : EHighlight) :
    (setRange hl i len v).length = hl.length := by
  simp [setRange]

set_option maxHeartbeats 1000000 in
theorem scanGo_fst_length (sd : SyntaxDef) (render : List Char) :
    ∀ fuel i hl ps istr ic, ((scanGo sd render fuel i hl ps istr ic).1).length = hl.length := by
  intro fuel
  induction fuel with
  | zero => intro i hl ps istr ic; rfl
  | succ n ih =>
    intro i hl ps istr ic
    rw [scanGo]
    simp only [apply_ite (fun p : List EHighlight × Bool => p.1.length), ih,
      setRange_length, List.length_set]
    repeat' split
    all_goals (first | rfl | simp only [ih, setRange_length, List.length_set])

theorem scanRow_fst_length (sd : SyntaxDef) (ic : Bool) (render : List Char) :
    ((scanRow sd ic render).1).length = render.length := by
  simp [scanRow, scanGo_fst_length]

/-- The structural fields of a row that the highlighter never writes. -/
def rowCore (r : Erow) : Nat × List Char × List Char := (r.idx, r.chars, r.render)

theorem updateSyntaxGo_length (syn : Option SyntaxDef) (nr : Nat) :
    ∀ fuel rows pos, (updateSyntaxGo syn nr fuel rows pos).length = rows.length := by
  intro fuel
  induction fuel with
  | zero => intro rows pos; rfl
  | succ n ih =>
    intro rows pos
    rw [updateSyntaxGo]
    repeat' split
    all_goals try (first | rfl | simp only [ih, List.length_set])
    split
    all_goals simp only [ih, List.length_set]

theorem updateSyntaxGo_core (syn : Option SyntaxDef) (nr : Nat) :
    ∀ (fuel : Nat) (rows : List Erow) (pos k : Nat),
      ((updateSyntaxGo syn nr fuel rows pos)[k]?).map rowCore = (rows[k]?).map rowCore := by
  intro fuel
  induction fuel with
  | zero => intro rows pos k; rfl
  | succ n ih =>
    intro rows pos k
    have hset : ∀ (row row' : Erow), rows[pos]? = some row →
        rowCore row' = rowCore row →
        ((rows.set pos row')[k]?).map rowCore = (rows[k]?).map rowCore := by
      intro row row' hrow hc
      by_cases hk : pos = k
      · subst hk
        obtain ⟨hlt, _⟩ := List.getElem?_eq_some_iff.mp hrow
        rw [List.getElem?_set_self hlt, hrow]
        simp [hc]
      · rw [List.getElem?_set_ne hk]
    cases hrows : rows[pos]? with
    | none => simp only [updateSyntaxGo, hrows]
    | some row =>
      cases syn with
      | none =>
        simp only [updateSyntaxGo, hrows]
        exact hset row _ hrows rfl
      | some sd =>
        simp only [updateSyntaxGo, hrows]
        split
        · rw [ih]
          exact hset row _ hrows rfl
        · exact hset row _ hrows rfl

/-- Every row's highlight array has exactly one entry per render
character. -/
def HlOk (rows : List Erow) : Prop :=
  ∀ (k : Nat) (r : Erow), rows[k]? = some r → r.hl.length = r.render.length

/-- Every row but possibly the one at `pos` satisfies the highlight
length invariant. -/
def HlOkExcept (rows : List Erow) (pos : Nat) : Prop :=
  ∀ (k : Nat) (r : Erow), rows[k]? = some r → k ≠ pos → r.hl.length = r.render.length

theorem hlOk_set (rows : List Erow) (pos : Nat) (row' : Erow)
    (h : HlOkExcept rows pos) (h' : row'.hl.length = row'.render.length) :
    HlOk (rows.set pos row') := by
  intro k r hr
  by_cases hk : pos = k
  · subst hk
    by_cases hlt : pos < rows.length
    · rw [List.getElem?_set_self hlt] at hr
      cases hr
      exact h'
    · rw [List.getElem?_eq_none_iff.mpr
        (by simpa using Nat.le_of_not_lt hlt)] at hr
      cases hr
  · rw [List.getElem?_set_ne hk] at hr
    exact h k r hr (fun hkp => hk hkp.symm)

theorem updateSyntaxGo_hlOk (syn : Option SyntaxDef) (nr : Nat) :
    ∀ fuel rows pos, HlOk rows → HlOk (updateSyntaxGo syn nr fuel rows pos) := by
  intro fuel
  induction fuel with
  | zero => intro rows pos h; exact h
  | succ n ih =>
    intro rows pos h
    have hx : HlOkExcept rows pos := fun k r hr _ => h k r hr
    cases hrows : rows[pos]? with
    | none => simp only [updateSyntaxGo, hrows]; exact h
    | some row =>
      cases syn with
      | none =>
        simp only [updateSyntaxGo, hrows]
        exact hlOk_set rows pos _ hx (by simp)
      | some sd =>
        simp only [updateSyntaxGo, hrows]
        split
        · exact ih _ _ (hlOk_set rows pos _ hx (by simp [scanRow_fst_length]))
        · exact hlOk_set rows pos _ hx (by simp [scanRow_fst_length])

/-- One `editorUpdateSyntax` entry repairs the highlight length of the
row it recomputes: the other rows only need the invariant beforehand. -/
theorem updateSyntaxGo_hlOk_entry (syn : Option SyntaxDef) (nr fuel : Nat)
    (rows : List Erow) (pos : Nat) (h : HlOkExcept rows pos) :
    HlOk (updateSyntaxGo syn nr (fuel + 1) rows pos) := by
  cases hrows : rows[pos]? with
  | none =>
    simp only [updateSyntaxGo, hrows]
    intro k r hr
    rcases eq_or_ne k pos with hk | hk
    · rw [hk, hrows] at hr; cases hr
    · exact h k r hr hk
  | some row =>
    cases syn with
    | none =>
      simp only [updateSyntaxGo, hrows]
      exact hlOk_set rows pos _ h (by simp)
    | some sd =>
      simp only [updateSyntaxGo, hrows]
      split
      · exact updateSyntaxGo_hlOk _ _ _ _ _ (hlOk_set rows pos _ h (by simp [scanRow_fst_length]))
      · exact hlOk_set rows pos _ h (by simp [scanRow_fst_length])

/-- `editorUpdateRowAt` repairs the updated row and preserves the
invariant elsewhere. -/
theorem updateRowAt_hlOk (ts : Nat) (syn : Option SyntaxDef) (nr : Nat)
    (rows : List Erow) (pos : Nat) (h : HlOkExcept rows pos) :
    HlOk (editorUpdateRowAt ts syn nr rows pos) := by
  unfold editorUpdateRowAt
  cases hrows : rows[pos]? with
  | none =>
    intro k r hr
    rcases eq_or_ne k pos with hk | hk
    · rw [hk, hrows] at hr; cases hr
    · exact h k r hr hk
  | some row =>
    apply updateSyntaxGo_hlOk_entry
    intro k r hr hk
    rw [List.getElem?_set_ne (fun hkp => hk hkp.symm)] at hr
    exact h k r hr hk

theorem updateSyntaxGo_idx (syn : Option SyntaxDef) (nr fuel : Nat)
    (rows : List Erow) (pos k : Nat) :
    ((updateSyntaxGo syn nr fuel rows pos)[k]?).map Erow.idx = (rows[k]?).map Erow.idx := by
  have hc := updateSyntaxGo_core syn nr fuel rows pos k
  rcases h1 : (updateSyntaxGo syn nr fuel rows pos)[k]? with _ | r <;>
    rcases h2 : rows[k]? with _ | r0 <;> rw [h1, h2] at hc <;> simp_all [rowCore]

theorem updateSyntaxGo_chars (syn : Option SyntaxDef) (nr fuel : Nat)
    (rows : List Erow) (pos k : Nat) :
    ((updateSyntaxGo syn nr fuel rows pos)[k]?).map Erow.chars = (rows[k]?).map Erow.chars := by
  have hc := updateSyntaxGo_core syn nr fuel rows pos k
  rcases h1 : (updateSyntaxGo syn nr fuel rows pos)[k]? with _ | r <;>
    rcases h2 : rows[k]? with _ | r0 <;> rw [h1, h2] at hc <;> simp_all [rowCore]

theorem updateRowAt_length (ts : Nat) (syn : Option SyntaxDef) (nr : Nat)
    (rows : List Erow) (pos : Nat) :
    (editorUpdateRowAt ts syn nr rows pos).length = rows.length := by
  unfold editorUpdateRowAt
  cases hrows : rows[pos]? with
  | none => rfl
  | some row => rw [updateSyntaxGo_length]; simp

theorem updateRowAt_idx (ts : Nat) (syn : Option SyntaxDef) (nr : Nat)
    (rows : List Erow) (pos k : Nat) :
    ((editorUpdateRowAt ts syn nr rows pos)[k]?).map Erow.idx = (rows[k]?).map Erow.idx := by
  unfold editorUpdateRowAt
  cases hrows : rows[pos]? with
  | none => rfl
  | some row =>
    rw [updateSyntaxGo_idx]
    by_cases hk : pos = k
    · subst hk
      obtain ⟨hlt, _⟩ := List.getElem?_eq_some_iff.mp hrows
      rw [List.getElem?_set_self hlt, hrows]
      rfl
    · rw [List.getElem?_set_ne hk]

theorem updateRowAt_chars (ts : Nat) (syn : Option SyntaxDef) (nr : Nat)
    (rows : List Erow) (pos k : Nat) :
    ((editorUpdateRowAt ts syn nr rows pos)[k]?).map Erow.chars = (rows[k]?).map Erow.chars := by
  unfold editorUpdateRowAt
  cases hrows : rows[pos]? with
  | none => rfl
  | some row =>
    rw [updateSyntaxGo_chars]
    by_cases hk : pos = k
    · subst hk
      obtain ⟨hlt, _⟩ := List.getElem?_eq_some_iff.mp hrows
      rw [List.getElem?_set_self hlt, hrows]
      rfl
    · rw [List.getElem?_set_ne hk]

/-- Positions of the spliced row list built by `editorInsertRow` before
its row update runs. -/
theorem insert_getElem (rows : List Erow) (newRow : Erow) (f : Erow → Erow) (a k : Nat)
    (ha : a ≤ rows.length) :
    (rows.take a ++ newRow :: (rows.drop a).map f)[k]? =
      (if k < a then rows[k]? else if k = a then some newRow
       else (rows[k - 1]?).map f) := by
  have hlt : (rows.take a).length = a := by
    simp [List.length_take, Nat.min_eq_left ha]
  by_cases h1 : k < a
  · rw [if_pos h1, List.getElem?_append_left (by omega), List.getElem?_take, if_pos h1]
  · rw [if_neg h1, List.getElem?_append_right (by omega), hlt]
    by_cases h2 : k = a
    · subst h2; simp
    · rw [if_neg h2]
      have hs : k - a = (k - a - 1) + 1 := by omega
      rw [hs, List.getElem?_cons_succ, List.getElem?_map, List.getElem?_drop]
      congr 2
      omega

/-- Positions of the row list built by `editorDelRow`. -/
theorem delete_getElem (rows : List Erow) (f : Erow → Erow) (a k : Nat)
    (ha : a < rows.length) :
    (rows.take a ++ (rows.drop (a + 1)).map f)[k]? =
      (if k < a then rows[k]? else (rows[k + 1]?).map f) := by
  have hlt : (rows.take a).length = a := by
    simp [List.length_take, Nat.min_eq_left (Nat.le_of_lt ha)]
  by_cases h1 : k < a
  · rw [if_pos h1, List.getElem?_append_left (by omega), List.getElem?_take, if_pos h1]
  · rw [if_neg h1, List.getElem?_append_right (by omega), hlt]
    rw [List.getElem?_map, List.getElem?_drop]
    congr 2
    omega

/-- Every row's `idx` equals its position. -/
def IdxOk (rows : List Erow) : Prop :=
  ∀ (k : Nat) (r : Erow), rows[k]? = some r → r.idx = k

/-- An in-range `editorInsertRow` gives the new row index `at`, keeps the
indices before `at`, and increments every index after it. -/
theorem insertRow_idx_spec (ts : Nat) (st : EditorState) (at_ : Int) (s : List Char)
    (h0 : 0 ≤ at_) (h1 : at_ ≤ (st.rows.length : Int)) (k : Nat) :
    ((editorInsertRow ts st at_ s).rows[k]?).map Erow.idx =
      (if k < at_.toNat then (st.rows[k]?).map Erow.idx
       else if k = at_.toNat then some at_.toNat
       else (st.rows[k - 1]?).map (fun r => r.idx + 1)) := by
  have hguard : ¬(at_ < 0 || at_ > (st.rows.length : Int)) = true := by
    simp only [Bool.or_eq_true, decide_eq_true_eq]
    omega
  have ha : at_.toNat ≤ st.rows.length := by omega
  unfold editorInsertRow
  rw [if_neg hguard]
  dsimp only
  rw [updateRowAt_idx, insert_getElem _ _ _ _ _ ha]
  split
  · rfl
  · split
    · rfl
    · rw [Option.map_map]
      rfl

/-- An in-range `editorDelRow` keeps the indices before `at` and
decrements every index from `at` on. -/
theorem delRow_idx_spec (st : EditorState) (at_ : Int)
    (h0 : 0 ≤ at_) (h1 : at_ < (st.rows.length : Int)) (k : Nat) :
    ((editorDelRow st at_).rows[k]?).map Erow.idx =
      (if k < at_.toNat then (st.rows[k]?).map Erow.idx
       else (st.rows[k + 1]?).map (fun r => r.idx - 1)) := by
  have hguard : ¬(at_ < 0 || at_ ≥ (st.rows.length : Int)) = true := by
    simp only [Bool.or_eq_true, decide_eq_true_eq]
    omega
  have ha : at_.toNat < st.rows.length := by omega
  unfold editorDelRow
  rw [if_neg hguard]
  dsimp only
  rw [delete_getElem _ _ _ _ ha]
  split
  · rfl
  · rw [Option.map_map]
    rfl

theorem insertRow_idxOk (ts : Nat) (st : EditorState) (at_ : Int) (s : List Char)
    (h0 : 0 ≤ at_) (h1 : at_ ≤ (st.rows.length : Int)) (h : IdxOk st.rows) :
    IdxOk (editorInsertRow ts st at_ s).rows := by
  intro k r hr
  have hs := insertRow_idx_spec ts st at_ s h0 h1 k
  rw [hr] at hs
  split at hs
  · rcases h2 : st.rows[k]? with _ | r0
    · rw [h2] at hs; cases hs
    · rw [h2] at hs
      simp only [Option.map_some'] at hs
      injection hs with hs
      have := h k r0 h2
      omega
  · split at hs
    · simp only [Option.map_some'] at hs
      injection hs with hs
      omega
    · rcases h2 : st.rows[k - 1]? with _ | r0
      · rw [h2] at hs; cases hs
      · rw [h2] at hs
        simp only [Option.map_some'] at hs
        injection hs with hs
        have := h (k - 1) r0 h2
        omega

theorem delRow_idxOk (st : EditorState) (at_ : Int)
    (h0 : 0 ≤ at_) (h1 : at_ < (st.rows.length : Int)) (h : IdxOk st.rows) :
    IdxOk (editorDelRow st at_).rows := by
  intro k r hr
  have hs := delRow_idx_spec st at_ h0 h1 k
  rw [hr] at hs
  split at hs
  · rcases h2 : st.rows[k]? with _ | r0
    · rw [h2] at hs; cases hs
    · rw [h2] at hs
      simp only [Option.map_some'] at hs
      injection hs with hs
      have := h k r0 h2
      omega
  · rcases h2 : st.rows[k + 1]? with _ | r0
    · rw [h2] at hs; cases hs
    · rw [h2] at hs
      simp only [Option.map_some'] at hs
      injection hs with hs
      have := h (k + 1) r0 h2
      omega

theorem hlOkExcept_set (rows : List Erow) (pos : Nat) (row' : Erow) (h : HlOk rows) :
    HlOkExcept (rows.set pos row') pos := by
  intro k r hr hk
  rw [List.getElem?_set_ne (fun hkp => hk hkp.symm)] at hr
  exact h k r hr

theorem insertRow_hlOk (ts : Nat) (st : EditorState) (at_ : Int) (s : List Char)
    (h : HlOk st.rows) : HlOk (editorInsertRow ts st at_ s).rows := by
  unfold editorInsertRow
  split
  · exact h
  · rename_i hguard
    simp only [Bool.or_eq_true, decide_eq_true_eq, not_or] at hguard
    have ha : at_.toNat ≤ st.rows.length := by omega
    dsimp only
    apply updateRowAt_hlOk
    intro k r hr hk
    rw [insert_getElem _ _ _ _ _ ha] at hr
    split at hr
    · exact h k r hr
    · rcases h2 : st.rows[k - 1]? with _ | r0
      · rw [h2] at hr; cases hr
      · rw [h2] at hr
        simp only [Option.map_some'] at hr
        cases hr
        exact h (k - 1) r0 h2

theorem delRow_hlOk (st : EditorState) (at_ : Int) (h : HlOk st.rows) :
    HlOk (editorDelRow st at_).rows := by
  unfold editorDelRow
  split
  · exact h
  · rename_i hguard
    simp only [Bool.or_eq_true, decide_eq_true_eq, not_or] at hguard
    have ha : at_.toNat < st.rows.length := by omega
    dsimp only
    intro k r hr
    rw [delete_getElem _ _ _ _ ha] at hr
    split at hr
    · exact h k r hr
    · rcases h2 : st.rows[k + 1]? with _ | r0
      · rw [h2] at hr; cases hr
      · rw [h2] at hr
        simp only [Option.map_some'] at hr
        cases hr
        exact h (k + 1) r0 h2

theorem rowInsertChar_hlOk (ts : Nat) (st : EditorState) (pos : Nat) (at_ : Int) (c : Char)
    (h : HlOk st.rows) : HlOk (editorRowInsertChar ts st pos at_ c).rows := by
  unfold editorRowInsertChar
  cases hrows : st.rows[pos]? with
  | none => exact h
  | some row =>
    dsimp only
    exact updateRowAt_hlOk _ _ _ _ _ (hlOkExcept_set _ _ _ h)

theorem rowAppendString_hlOk (ts : Nat) (st : EditorState) (pos : Nat) (s : List Char)
    (h : HlOk st.rows) : HlOk (editorRowAppendString ts st pos s).rows := by
  unfold editorRowAppendString
  cases hrows : st.rows[pos]? with
  | none => exact h
  | some row =>
    dsimp only
    exact updateRowAt_hlOk _ _ _ _ _ (hlOkExcept_set _ _ _ h)

theorem rowDelChar_hlOk (ts : Nat) (st : EditorState) (pos : Nat) (at_ : Int)
    (h : HlOk st.rows) : HlOk (editorRowDelChar ts st pos at_).rows := by
  unfold editorRowDelChar
  cases hrows : st.rows[pos]? with
  | none => exact h
  | some row =>
    dsimp only
    split
    · exact h
    · exact updateRowAt_hlOk _ _ _ _ _ (hlOkExcept_set _ _ _ h)

theorem insertChar_hlOk (ts : Nat) (st : EditorState) (c : Char) (h : HlOk st.rows) :
    HlOk (editorInsertChar ts st c).rows := by
  unfold editorInsertChar
  dsimp only
  apply rowInsertChar_hlOk
  split
  · exact insertRow_hlOk _ _ _ _ h
  · exact h

theorem insertNewline_hlOk (ts : Nat) (st : EditorState) (h : HlOk st.rows) :
    HlOk (editorInsertNewline ts st).rows := by
  unfold editorInsertNewline
  split
  · dsimp only
    exact insertRow_hlOk _ _ _ _ h
  · cases h1 : st.rows[st.cy]? with
    | none => exact h
    | some row =>
      dsimp only
      cases h2 : (editorInsertRow ts st ((st.cy : Int) + 1) (row.chars.drop st.cx)).rows[st.cy]? with
      | none => exact insertRow_hlOk _ _ _ _ h
      | some row2 =>
        dsimp only
        exact updateRowAt_hlOk _ _ _ _ _
          (hlOkExcept_set _ _ _ (insertRow_hlOk _ _ _ _ h))

theorem delChar_hlOk (ts : Nat) (st : EditorState) (h : HlOk st.rows) :
    HlOk (editorDelChar ts st).rows := by
  unfold editorDelChar
  split
  · exact h
  · split
    · exact h
    · cases h1 : st.rows[st.cy]? with
      | none => exact h
      | some row =>
        dsimp only
        split
        · exact rowDelChar_hlOk _ _ _ _ h
        · cases h2 : st.rows[st.cy - 1]? with
          | none => exact h
          | some prow =>
            dsimp only
            exact delRow_hlOk _ _ (rowAppendString_hlOk _ _ _ _ h)

/-- C2: starting from a buffer where `row[i].index == i`, an in-range
`editorInsertRow` gives the new row index `at` and increments the index
of every following row, an in-range `editorDelRow` decrements the index
of every following row, and both re-establish `row[i].index == i` for
every valid `i`, so the invariant holds after each operation of any
sequence of in-range inserts and deletes. -/
theorem C2_row_index_invariant (ts : Nat) (st : EditorState) (at_ : Int) (s : List Char)
    (hIdx : IdxOk st.rows) :
    (0 ≤ at_ → at_ ≤ (st.rows.length : Int) →
      IdxOk (editorInsertRow ts st at_ s).rows ∧
      ((editorInsertRow ts st at_ s).rows[at_.toNat]?).map Erow.idx = some at_.toNat ∧
      (∀ k : Nat, at_.toNat < k →
        ((editorInsertRow ts st at_ s).rows[k]?).map Erow.idx =
          (st.rows[k - 1]?).map (fun r => r.idx + 1))) ∧
    (0 ≤ at_ → at_ < (st.rows.length : Int) →
      IdxOk (editorDelRow st at_).rows ∧
      (∀ k : Nat, at_.toNat ≤ k →
        ((editorDelRow st at_).rows[k]?).map Erow.idx =
          (st.rows[k + 1]?).map (fun r => r.idx - 1))) := by
  constructor
  · intro h0 h1
    refine ⟨insertRow_idxOk ts st at_ s h0 h1 hIdx, ?_, ?_⟩
    · rw [insertRow_idx_spec ts st at_ s h0 h1 at_.toNat]
      simp
    · intro k hk
      rw [insertRow_idx_spec ts st at_ s h0 h1 k, if_neg (by omega), if_neg (by omega)]
  · intro h0 h1
    refine ⟨delRow_idxOk st at_ h0 h1 hIdx, ?_⟩
    intro k hk
    rw [delRow_idx_spec st at_ h0 h1 k, if_neg (by omega)]

/-- Concrete witness row and state used to instantiate the claim
theorems that carry hypotheses. -/
def wRow : Erow :=
  { idx := 0, chars := "ab".toList, render := "ab".toList,
    hl := [HL_NORMAL, HL_NORMAL], hl_open_comment := false }

def wSt : EditorState :=
  { rows := [wRow], dirty := 0, cx := 0, cy := 0, rowoff := 0, syn := none }

theorem wSt_idxOk : IdxOk wSt.rows := by
  intro k r hr
  cases k with
  | zero => cases hr; rfl
  | succ n => simp [wSt, wRow] at hr

theorem wSt_hlOk : HlOk wSt.rows := by
  intro k r hr
  cases k with
  | zero => cases hr; rfl
  | succ n => simp [wSt, wRow] at hr

/-- Witness for C2 at a concrete one-row buffer. -/
theorem C2_row_index_invariant_witness :
    IdxOk (editorInsertRow 4 wSt 0 ("x".toList) ).rows ∧
    IdxOk (editorDelRow wSt 0).rows := by
  have h := C2_row_index_invariant 4 wSt 0 ("x".toList) wSt_idxOk
  exact ⟨(h.1 (by decide) (by decide)).1, (h.2 (by decide) (by decide)).1⟩

/-- C3: every buffer operation keeps, for every row, one highlight entry
per render character (`len(highlight) == rsize == len(render)`): row
creation, character insert, delete and append, row split and join, and
a bare syntax recompute. -/
theorem C3_hl_length_invariant (ts : Nat) (st : EditorState) (h : HlOk st.rows) :
    (∀ (at_ : Int) (s : List Char), HlOk (editorInsertRow ts st at_ s).rows) ∧
    (∀ at_ : Int, HlOk (editorDelRow st at_).rows) ∧
    (∀ (pos : Nat) (at_ : Int) (c : Char), HlOk (editorRowInsertChar ts st pos at_ c).rows) ∧
    (∀ (pos : Nat) (at_ : Int), HlOk (editorRowDelChar ts st pos at_).rows) ∧
    (∀ (pos : Nat) (s : List Char), HlOk (editorRowAppendString ts st pos s).rows) ∧
    (∀ c : Char, HlOk (editorInsertChar ts st c).rows) ∧
    HlOk (editorInsertNewline ts st).rows ∧
    HlOk (editorDelChar ts st).rows ∧
    (∀ pos : Nat, HlOk (editorUpdateSyntax st.syn st.rows pos)) := by
  refine ⟨fun at_ s => insertRow_hlOk ts st at_ s h,
    fun at_ => delRow_hlOk st at_ h,
    fun pos at_ c => rowInsertChar_hlOk ts st pos at_ c h,
    fun pos at_ => rowDelChar_hlOk ts st pos at_ h,
    fun pos s => rowAppendString_hlOk ts st pos s h,
    fun c => insertChar_hlOk ts st c h,
    insertNewline_hlOk ts st h,
    delChar_hlOk ts st h,
    fun pos => ?_⟩
  unfold editorUpdateSyntax
  exact updateSyntaxGo_hlOk _ _ _ _ _ h

/-- Witness for C3 at a concrete one-row buffer. -/
theorem C3_hl_length_invariant_witness :
    HlOk (editorRowInsertChar 4 wSt 0 5 'z').rows ∧
    HlOk (editorInsertNewline 4 wSt).rows := by
  have h := C3_hl_length_invariant 4 wSt wSt_hlOk
  exact ⟨h.2.2.1 0 5 'z', h.2.2.2.2.2.2.1⟩

/-- C9: an out-of-range `editorInsertRow` (`at < 0` or `at > numrows`),
`editorDelRow` (`at < 0` or `at >= numrows`) or `editorRowDelChar`
(`at < 0` or `at >= size`) returns the state entirely unchanged: same
row sequence, same contents, same dirty counter. -/
theorem C9_out_of_range_noop (ts : Nat) (st : EditorState) (pos : Nat) (at_ : Int)
    (s : List Char) :
    ((at_ < 0 ∨ at_ > (st.rows.length : Int)) → editorInsertRow ts st at_ s = st) ∧
    ((at_ < 0 ∨ at_ ≥ (st.rows.length : Int)) → editorDelRow st at_ = st) ∧
    (∀ row : Erow, st.rows[pos]? = some row →
      (at_ < 0 ∨ at_ ≥ (row.chars.length : Int)) → editorRowDelChar ts st pos at_ = st) := by
  refine ⟨?_, ?_, ?_⟩
  · intro hoor
    unfold editorInsertRow
    rw [if_pos (by simp only [Bool.or_eq_true, decide_eq_true_eq]; omega)]
  · intro hoor
    unfold editorDelRow
    rw [if_pos (by simp only [Bool.or_eq_true, decide_eq_true_eq]; omega)]
  · intro row hrow hoor
    unfold editorRowDelChar
    rw [hrow]
    dsimp only
    rw [if_pos (by simp only [Bool.or_eq_true, decide_eq_true_eq]; omega)]

/-- Witness for C9 at a concrete one-row buffer. -/
theorem C9_out_of_range_noop_witness :
    editorInsertRow 4 wSt 7 ("x".toList) = wSt ∧
    editorDelRow wSt (-1) = wSt ∧
    editorRowDelChar 4 wSt 0 2 = wSt := by
  refine ⟨(C9_out_of_range_noop 4 wSt 0 7 ("x".toList)).1 (by decide),
    (C9_out_of_range_noop 4 wSt 0 (-1) ("x".toList)).2.1 (by decide),
    (C9_out_of_range_noop 4 wSt 0 2 ("x".toList)).2.2 wRow rfl (by decide)⟩

/-- C10: `editorRowInsertChar` with an out-of-range column clamps the
insertion position to the row's end: the character is appended, the raw
length grows by one, and the dirty counter increments. -/
theorem C10_insert_char_clamps (ts : Nat) (st : EditorState) (pos : Nat) (at_ : Int)
    (c : Char) (row : Erow) (hrow : st.rows[pos]? = some row)
    (hoor : at_ < 0 ∨ at_ > (row.chars.length : Int)) :
    ((editorRowInsertChar ts st pos at_ c).rows[pos]?).map Erow.chars =
      some (row.chars ++ [c]) ∧
    ((editorRowInsertChar ts st pos at_ c).rows[pos]?).map (fun r => r.chars.length) =
      some (row.chars.length + 1) ∧
    (editorRowInsertChar ts st pos at_ c).dirty = st.dirty + 1 := by
  obtain ⟨hlt, _⟩ := List.getElem?_eq_some_iff.mp hrow
  have hchars : ((editorRowInsertChar ts st pos at_ c).rows[pos]?).map Erow.chars =
      some (row.chars ++ [c]) := by
    unfold editorRowInsertChar
    rw [hrow]
    dsimp only
    rw [if_pos (by simp only [Bool.or_eq_true, decide_eq_true_eq]; omega)]
    rw [updateRowAt_chars, List.getElem?_set_self hlt]
    simp
  refine ⟨hchars, ?_, ?_⟩
  · have := congrArg (Option.map List.length) hchars
    rw [Option.map_map] at this
    simpa using this
  · unfold editorRowInsertChar
    rw [hrow]

/-- Witness for C10 at a concrete one-row buffer. -/
theorem C10_insert_char_clamps_witness :
    ((editorRowInsertChar 4 wSt 0 5 'z').rows[0]?).map Erow.chars =
      some ("ab".toList ++ ['z']) ∧
    (editorRowInsertChar 4 wSt 0 5 'z').dirty = wSt.dirty + 1 := by
  have h := C10_insert_char_clamps 4 wSt 0 5 'z' wRow rfl (by decide)
  exact ⟨h.1, h.2.2⟩

/-- One rendered-width step: `rx` after processing one raw character. -/
theorem rxStep_gt (ts : Nat) (hts : 0 < ts) (cur : Nat) (c : Char) :
    cur < (if c == '\t' then cur + (ts - 1) - cur % ts + 1 else cur + 1) := by
  have hm : cur % ts < ts := Nat.mod_lt cur hts
  split <;> omega

theorem cxToRxGo_ge (ts : Nat) (hts : 0 < ts) :
    ∀ (chars : List Char) (cx cur : Nat), cur ≤ cxToRxGo ts chars cx cur := by
  intro chars
  induction chars with
  | nil => intro cx cur; cases cx <;> simp [cxToRxGo]
  | cons c rest ih =>
    intro cx cur
    cases cx with
    | zero => simp [cxToRxGo]
    | succ n =>
      have hm := Nat.mod_lt cur hts
      calc cur ≤ (if c == '\t' then cur + (ts - 1) - cur % ts + 1 else cur + 1) := by
            split <;> omega
        _ ≤ cxToRxGo ts rest n _ := ih n _

theorem roundtrip_go (ts : Nat) (hts : 0 < ts) :
    ∀ (chars : List Char) (cx cur cxa : Nat), cx ≤ chars.length →
      rxToCxGo ts chars (cxToRxGo ts chars cx cur) cur cxa = cxa + cx := by
  intro chars
  induction chars with
  | nil =>
    intro cx cur cxa h
    have hz : cx = 0 := by simpa using h
    subst hz
    rfl
  | cons c rest ih =>
    intro cx cur cxa h
    cases cx with
    | zero =>
      show rxToCxGo ts (c :: rest) cur cur cxa = cxa
      unfold rxToCxGo
      rw [if_pos (rxStep_gt ts hts cur c)]
    | succ n =>
      show rxToCxGo ts (c :: rest) (cxToRxGo ts rest n _) cur cxa = cxa + (n + 1)
      unfold rxToCxGo
      rw [if_neg (by
        have := cxToRxGo_ge ts hts rest n (if c == '\t' then cur + (ts - 1) - cur % ts + 1
          else cur + 1)
        omega)]
      rw [ih n _ (cxa + 1) (Nat.lt_succ_iff.mp h)]
      omega

/-- C6: with `tab_stop = 4`, converting a valid buffer column to a render
column and back returns the original column, and in the row `"a\tb"` the
render column of buffer column 2 is 4. -/
theorem C6_tab_mapping :
    (∀ (chars : List Char) (cx : Nat), cx ≤ chars.length →
      editorRowRxToCx 4 chars (editorRowCxToRx 4 chars cx) = cx) ∧
    editorRowCxToRx 4 ("a\tb".toList) 2 = 4 := by
  constructor
  · intro chars cx h
    have := roundtrip_go 4 (by omega) chars cx 0 0 h
    simpa [editorRowRxToCx, editorRowCxToRx] using this
  · rfl

/-- Witness for C6 on the row `"a\tb"` at buffer column 2. -/
theorem C6_tab_mapping_witness :
    editorRowRxToCx 4 ("a\tb".toList) (editorRowCxToRx 4 ("a\tb".toList) 2) = 2 := by
  exact C6_tab_mapping.1 ("a\tb".toList) 2 (by decide)

/-- Written from the spec's words, for comparison with the code's
`matchPatternC`: a pattern starting with a dot matches as a filename
suffix, any other pattern as a substring. -/
def specMatchPattern (filename pat : List Char) : Bool :=
  if pat.head? == some '.' then pat.isSuffixOf filename
  else (strstrIdx filename pat).isSome

/-- The spec-side selection: first entry with a matching pattern, using
the spec's suffix semantics. -/
def specSelectFrom (filename : List Char) : List SyntaxDef → Option SyntaxDef
  | [] => none
  | s :: rest =>
    if s.filematch.any (fun p => specMatchPattern filename p) then some s
    else specSelectFrom filename rest

theorem strrchrDot_none (s : List Char) (h : '.' ∉ s) : strrchrDot s = none := by
  induction s with
  | nil => rfl
  | cons c rest ih =>
    simp only [List.mem_cons, not_or] at h
    rw [strrchrDot, ih h.2]
    simp only [beq_iff_eq]
    rw [if_neg (fun hc => h.1 hc.symm)]

theorem strrchrDot_suffix (s r : List Char) (h : strrchrDot s = some r) : r <:+ s := by
  induction s with
  | nil => cases h
  | cons c rest ih =>
    rw [strrchrDot] at h
    cases hr : strrchrDot rest with
    | some r' =>
      rw [hr] at h
      cases h
      exact (ih hr).trans (List.suffix_cons c rest)
    | none =>
      rw [hr] at h
      by_cases hc : (c == '.') = true
      · rw [if_pos hc] at h
        injection h with h
        subst h
        exact List.suffix_refl _
      · rw [if_neg hc] at h
        cases h

theorem strrchrDot_append (pre rest : List Char) (h : '.' ∉ rest) :
    strrchrDot (pre ++ '.' :: rest) = some ('.' :: rest) := by
  induction pre with
  | nil =>
    rw [List.nil_append, strrchrDot, strrchrDot_none rest h]
    simp
  | cons p pre' ih =>
    rw [List.cons_append, strrchrDot, ih]

/-- On a dot pattern whose tail has no further dot — true of every dot
pattern in `HLDB` — the code's last-extension comparison agrees with the
spec's suffix test. -/
theorem dotMatch_eq_spec (filename pat : List Char) (hp : pat.head? = some '.')
    (ht : '.' ∉ pat.tail) :
    matchPatternC filename pat = specMatchPattern filename pat := by
  obtain ⟨rest, rfl⟩ : ∃ rest, pat = '.' :: rest := by
    cases pat with
    | nil => cases hp
    | cons c r =>
      injection hp with hp
      exact ⟨r, by rw [hp]⟩
  simp only [List.tail_cons] at ht
  unfold matchPatternC specMatchPattern
  rw [if_pos (by simp), if_pos (by simp)]
  cases hs : strrchrDot filename with
  | some e =>
    dsimp only
    by_cases he : e = '.' :: rest
    · subst he
      have hsuf : ('.' :: rest) <:+ filename := strrchrDot_suffix _ _ hs
      simp [List.isSuffixOf_iff_suffix, hsuf]
    · have hnsuf : ¬(('.' :: rest) <:+ filename) := by
        rintro ⟨t, rfl⟩
        rw [strrchrDot_append t rest ht] at hs
        injection hs with hs
        exact he hs.symm
      rw [beq_false_of_ne he,
        Bool.eq_false_iff.mpr (fun hx => hnsuf (List.isSuffixOf_iff_suffix.mp hx))]
  | none =>
    have hnsuf : ¬(('.' :: rest) <:+ filename) := by
      rintro ⟨t, rfl⟩
      rw [strrchrDot_append t rest ht] at hs
      cases hs
    dsimp only
    rw [Bool.eq_false_iff.mpr (fun hx => hnsuf (List.isSuffixOf_iff_suffix.mp hx))]

theorem matchPatternC_eq_spec (filename pat : List Char)
    (hgood : pat.head? = some '.' → '.' ∉ pat.tail) :
    matchPatternC filename pat = specMatchPattern filename pat := by
  by_cases hp : pat.head? = some '.'
  · exact dotMatch_eq_spec filename pat hp (hgood hp)
  · unfold matchPatternC specMatchPattern
    rw [if_neg (by simpa using hp), if_neg (by simpa using hp)]

theorem anyCongr {α : Type} (l : List α) (p q : α → Bool) (h : ∀ a ∈ l, p a = q a) :
    l.any p = l.any q := by
  induction l with
  | nil => rfl
  | cons a t ih =>
    simp only [List.any_cons]
    rw [h a (List.mem_cons_self a t), ih (fun b hb => h b (List.mem_cons_of_mem a hb))]

theorem selectFrom_congr (filename : List Char) (l : List SyntaxDef)
    (h : ∀ sd ∈ l, ∀ p ∈ sd.filematch, matchPatternC filename p = specMatchPattern filename p) :
    selectFrom filename l = specSelectFrom filename l := by
  induction l with
  | nil => rfl
  | cons s rest ih =>
    rw [selectFrom, specSelectFrom,
      anyCongr s.filematch _ _ (h s (List.mem_cons_self s rest)),
      ih (fun sd hsd => h sd (List.mem_cons_of_mem s hsd))]

/-- A dot pattern with a dot-free tail (or a non-dot pattern). -/
def patGood (pat : List Char) : Bool :=
  !(pat.head? == some '.') || !(pat.tail.contains '.')

theorem HLDB_patterns_all_good : HLDB.all (fun sd => sd.filematch.all patGood) = true := by
  decide

/-- Every dot pattern in the registry has a dot-free tail. -/
theorem HLDB_patterns_good (sd : SyntaxDef) (hsd : sd ∈ HLDB) (p : List Char)
    (hp : p ∈ sd.filematch) (hdot : p.head? = some '.') : '.' ∉ p.tail := by
  have h1 := List.all_eq_true.mp HLDB_patterns_all_good sd hsd
  have h2 := List.all_eq_true.mp h1 p hp
  unfold patGood at h2
  simp only [Bool.or_eq_true, Bool.not_eq_true'] at h2
  rcases h2 with h2 | h2
  · rw [beq_eq_false_iff_ne] at h2
    exact absurd hdot h2
  · intro hmem
    simp at h2
    exact h2 hmem

/-- The code's selection computes `List.find?` of the per-entry pattern
test: the first registry entry with a matching pattern wins. -/
theorem selectFrom_eq_find (filename : List Char) (l : List SyntaxDef) :
    selectFrom filename l =
      l.find? (fun sd => sd.filematch.any (fun p => matchPatternC filename p)) := by
  induction l with
  | nil => rfl
  | cons s rest ih =>
    rw [selectFrom]
    by_cases hs : s.filematch.any (fun p => matchPatternC filename p)
    · rw [if_pos hs, List.find?_cons_of_pos rest hs]
    · rw [if_neg hs, List.find?_cons_of_neg rest (by simpa using hs), ih]

/-- Every row's highlight array is entirely the default class. -/
def AllDefault (rows : List Erow) : Prop :=
  ∀ (k : Nat) (r : Erow), rows[k]? = some r →
    r.hl = List.replicate r.render.length HL_NORMAL

/-- The row value `editorUpdateRow` produces under no active syntax. -/
def rowNoSyn (ts : Nat) (row : Erow) : Erow :=
  { row with render := renderChars ts row.chars, hl := List.replicate (renderChars ts row.chars).length HL_NORMAL }

theorem updateRowAt_none (ts nr : Nat) (rows : List Erow) (pos : Nat) (row : Erow)
    (h : rows[pos]? = some row) :
    editorUpdateRowAt ts none nr rows pos = rows.set pos (rowNoSyn ts row) := by
  obtain ⟨hlt, _⟩ := List.getElem?_eq_some_iff.mp h
  unfold editorUpdateRowAt
  rw [h]
  dsimp only
  have h2 : (rows.set pos ({ row with render := renderChars ts row.chars }))[pos]? = some ({ row with render := renderChars ts row.chars }) := List.getElem?_set_self hlt
  rw [updateSyntaxGo, h2]
  dsimp only
  rw [List.set_set]
  simp only [rowNoSyn]

theorem insertRow_syn (ts : Nat) (st : EditorState) (at_ : Int) (s : List Char) :
    (editorInsertRow ts st at_ s).syn = st.syn := by
  unfold editorInsertRow
  split <;> rfl

theorem insertRow_allDefault (ts : Nat) (st : EditorState) (at_ : Int) (s : List Char)
    (hsyn : st.syn = none) (h : AllDefault st.rows) :
    AllDefault (editorInsertRow ts st at_ s).rows := by
  unfold editorInsertRow
  split
  · exact h
  · rename_i hguard
    simp only [Bool.or_eq_true, decide_eq_true_eq, not_or] at hguard
    have ha : at_.toNat ≤ st.rows.length := by omega
    dsimp only
    rw [hsyn]
    have hnew : (st.rows.take at_.toNat ++ ({ idx := at_.toNat, chars := s, render := [], hl := [], hl_open_comment := false } : Erow) :: (st.rows.drop at_.toNat).map (fun r => { r with idx := r.idx + 1 }))[at_.toNat]? = some ({ idx := at_.toNat, chars := s, render := [], hl := [], hl_open_comment := false } : Erow) := by
      rw [insert_getElem _ _ _ _ _ ha, if_neg (by omega), if_pos rfl]
    rw [updateRowAt_none _ _ _ _ _ hnew]
    intro k r hr
    by_cases hk : at_.toNat = k
    · subst hk
      rw [List.getElem?_set_self (by
        obtain ⟨hlt, _⟩ := List.getElem?_eq_some_iff.mp hnew
        simpa using hlt)] at hr
      cases hr
      rfl
    · rw [List.getElem?_set_ne hk] at hr
      rw [insert_getElem _ _ _ _ _ ha] at hr
      split at hr
      · exact h k r hr
      · rw [if_neg (fun hkk => hk hkk.symm)] at hr
        rcases h2 : st.rows[k - 1]? with _ | r0
        · rw [h2] at hr; cases hr
        · rw [h2] at hr
          simp only [Option.map_some'] at hr
          cases hr
          exact h (k - 1) r0 h2

theorem editorOpen_allDefault (ts : Nat) (filename content : List Char)
    (hnone : selectFrom filename HLDB = none) :
    AllDefault (editorOpen ts filename content HLDB).rows := by
  unfold editorOpen
  dsimp only
  rw [hnone]
  have hgen : ∀ (lines : List (List Char)) (st : EditorState), st.syn = none →
      AllDefault st.rows →
      AllDefault ((lines.foldl
        (fun st l => editorInsertRow ts st (st.rows.length : Int) l) st)).rows := by
    intro lines
    induction lines with
    | nil => intro st _ h; exact h
    | cons l rest ih =>
      intro st hsyn h
      rw [List.foldl_cons]
      exact ih _ (by rw [insertRow_syn]; exact hsyn)
        (insertRow_allDefault ts st _ l hsyn h)
  exact hgen _ { rows := [], dirty := 0, cx := 0, cy := 0, rowoff := 0, syn := none } rfl
    (fun k r hr => by simp at hr)

/-- C4: syntax selection returns the first registry entry, in registry
order, with a matching pattern; for the shipped registry the code's
last-extension test for dot patterns coincides with the spec's suffix
semantics (substring otherwise); and with no active syntax every
recomputed row, and every row of a freshly opened file, is highlighted
entirely as the default class. -/
theorem C4_syntax_selection :
    (∀ (filename : List Char) (registry : List SyntaxDef),
      selectFrom filename registry =
        registry.find? (fun sd => sd.filematch.any (fun p => matchPatternC filename p))) ∧
    (∀ filename : List Char, selectFrom filename HLDB = specSelectFrom filename HLDB) ∧
    (∀ (rows : List Erow) (pos : Nat) (row : Erow), rows[pos]? = some row →
      (editorUpdateSyntax none rows pos)[pos]? =
        some { row with hl := List.replicate row.render.length HL_NORMAL }) ∧
    (∀ (ts : Nat) (filename content : List Char),
      selectFrom filename HLDB = none →
      AllDefault (editorOpen ts filename content HLDB).rows) := by
  refine ⟨selectFrom_eq_find, ?_, ?_, editorOpen_allDefault⟩
  · intro filename
    exact selectFrom_congr filename HLDB
      (fun sd hsd p hp => matchPatternC_eq_spec filename p (HLDB_patterns_good sd hsd p hp))
  · intro rows pos row hrow
    obtain ⟨hlt, _⟩ := List.getElem?_eq_some_iff.mp hrow
    unfold editorUpdateSyntax
    rw [updateSyntaxGo, hrow]
    dsimp only
    rw [List.getElem?_set_self hlt]

/-- Witness for C4: `main.c` selects the C entry, `x.pyw` the Python
entry, `README` nothing, and an update under no syntax paints the
default class. -/
theorem C4_syntax_selection_witness :
    selectFrom ("main.c".toList) HLDB = specSelectFrom ("main.c".toList) HLDB ∧
    (editorUpdateSyntax none wSt.rows 0)[0]? =
      some { wRow with hl := List.replicate (wRow.render.length) HL_NORMAL } := by
  exact ⟨C4_syntax_selection.2.1 ("main.c".toList),
    C4_syntax_selection.2.2.1 wSt.rows 0 wRow rfl⟩

/-- The effective length of a keyword entry: the trailing `'|'` sentinel
is not part of the matched text. -/
def kwLen (kw : List Char) : Nat :=
  if kw.getD (kw.length - 1) (Char.ofNat 0) == '|' then kw.length - 1 else kw.length

/-- Whether a keyword entry carries the secondary-class sentinel. -/
def kwIsSecondary (kw : List Char) : Bool :=
  kw.getD (kw.length - 1) (Char.ofNat 0) == '|'

/-- The per-keyword test of the loop: literal prefix match at `i` and a
separator (or the end-of-line NUL) immediately after. -/
def kwMatches (render : List Char) (i : Nat) (kw : List Char) : Bool :=
  strncmpAt render i (kw.take (kwLen kw)) && is_separator (strAt render (i + kwLen kw))

/-- The keyword loop returns the first list entry that matches — first
match wins, not longest match. -/
theorem kwFind_eq_find (kws : List (List Char)) (render : List Char) (i : Nat) :
    kwFind kws render i =
      (kws.find? (kwMatches render i)).map (fun kw => (kwLen kw, kwIsSecondary kw)) := by
  induction kws with
  | nil => rfl
  | cons kw rest ih =>
    rw [kwFind]
    show (if kwMatches render i kw then some (kwLen kw, kwIsSecondary kw)
          else kwFind rest render i) = _
    by_cases hm : kwMatches render i kw = true
    · rw [if_pos hm, List.find?_cons_of_pos rest hm, Option.map_some']
    · rw [if_neg hm, List.find?_cons_of_neg rest (by simpa using hm), ih]

/-- A syntax whose keyword list is `["for", "int|"]`, as in the claim's
examples; no comments, strings or numbers, so only the keyword path
runs. -/
def kwTestSyn : SyntaxDef :=
  { filetype := [], filematch := [], keywords := ["for".toList, "int|".toList],
    scs := [], mcs := [], mce := [], flags := 0 }

/-- C5: keyword classification happens only at a separator boundary and
takes the first matching list entry whose literal text is followed by a
separator or end of line; the `'|'` sentinel selects the secondary
class.  `"forward"` yields no keyword highlight, `"for (x)"` highlights
`for` as a primary keyword, and `"int x"` highlights `int` as a
secondary keyword. -/
theorem C5_keyword_matching :
    (∀ (kws : List (List Char)) (render : List Char) (i : Nat),
      kwFind kws render i =
        (kws.find? (kwMatches render i)).map (fun kw => (kwLen kw, kwIsSecondary kw))) ∧
    scanRow kwTestSyn false ("forward".toList) = (List.replicate 7 HL_NORMAL, false) ∧
    scanRow kwTestSyn false ("for (x)".toList) =
      ([HL_KEYWORD1, HL_KEYWORD1, HL_KEYWORD1, HL_NORMAL, HL_NORMAL, HL_NORMAL,
        HL_NORMAL], false) ∧
    scanRow kwTestSyn false ("int x".toList) =
      ([HL_KEYWORD2, HL_KEYWORD2, HL_KEYWORD2, HL_NORMAL, HL_NORMAL], false) := by
  refine ⟨kwFind_eq_find, by decide, by decide, by decide⟩

/-- Serialization of a list of raw lines: each line followed by exactly
one newline. -/
def joinNl : List (List Char) → List Char
  | [] => []
  | l :: rest => l ++ '\n' :: joinNl rest

/-- A file whose lines carry their own terminators. -/
def joinChunks : List (List Char) → List (List Char) → List Char
  | [], _ => []
  | _ :: _, [] => []
  | l :: ls, t :: ts => (l ++ t) ++ joinChunks ls ts

theorem getlineSplit_chunk (m rest : List Char) (hm : '\n' ∉ m) :
    getlineSplit ((m ++ ['\n']) ++ rest) = (m ++ ['\n']) :: getlineSplit rest := by
  induction m with
  | nil =>
    rw [List.nil_append, List.cons_append, List.nil_append, getlineSplit]
    rw [if_pos (by simp)]
  | cons c m' ih =>
    simp only [List.mem_cons, not_or] at hm
    rw [List.cons_append, List.cons_append, getlineSplit]
    rw [if_neg (by simpa using fun hc => hm.1 hc.symm)]
    rw [show (m' ++ ['\n']) ++ rest = m' ++ '\n' :: rest by simp]  at ih ⊢
    rw [ih hm.2]

theorem dropWhile_append_of_all {p : Char → Bool} (ts xs : List Char)
    (h : ∀ c ∈ ts, p c) : (ts ++ xs).dropWhile p = xs.dropWhile p := by
  induction ts with
  | nil => rfl
  | cons c t ih =>
    rw [List.cons_append, List.dropWhile_cons, if_pos (h c (List.mem_cons_self c t))]
    exact ih (fun b hb => h b (List.mem_cons_of_mem c hb))

theorem stripCrNl_of_clean (l : List Char) (h1 : '\n' ∉ l) (h2 : l.getLast? ≠ some '\r') :
    stripCrNl l = l := by
  unfold stripCrNl
  cases hr : l.reverse with
  | nil =>
    exact (List.reverse_eq_nil_iff.mp hr).symm
  | cons c rest =>
    have hc : (c == '\n' || c == '\r') = false := by
      have hhead : l.getLast? = some c := by
        rw [← List.head?_reverse, hr]
        rfl
      have hcn : c ≠ '\n' := by
        intro hcc
        subst hcc
        exact h1 (by
          have : '\n' ∈ l.reverse := by rw [hr]; exact List.mem_cons_self _ _
          simpa using this)
      have hcr : c ≠ '\r' := by
        intro hcc
        subst hcc
        exact h2 hhead
      simp [hcn, hcr]
    rw [List.dropWhile_cons, hc]
    simp [← hr]

theorem stripCrNl_chunk (l t : List Char) (hall : ∀ c ∈ t, (c == '\n' || c == '\r') = true)
    (h1 : '\n' ∉ l) (h2 : l.getLast? ≠ some '\r') :
    stripCrNl (l ++ t) = l := by
  unfold stripCrNl
  rw [List.reverse_append]
  rw [dropWhile_append_of_all _ _ (fun c hc => hall c (by simpa using hc))]
  have := stripCrNl_of_clean l h1 h2
  unfold stripCrNl at this
  exact this

/-- Splitting then stripping recovers exactly the raw lines when every
line is newline-free, does not end in a carriage return, and is
terminated by `\n` or `\r\n`. -/
theorem split_strip (lines terms : List (List Char))
    (hlen : terms.length = lines.length)
    (hline : ∀ l ∈ lines, '\n' ∉ l ∧ l.getLast? ≠ some '\r')
    (hterm : ∀ t ∈ terms, t = ['\n'] ∨ t = ['\r', '\n']) :
    (getlineSplit (joinChunks lines terms)).map stripCrNl = lines := by
  induction lines generalizing terms with
  | nil =>
    cases terms with
    | nil => rfl
    | cons t ts => cases hlen
  | cons l ls ih =>
    cases terms with
    | nil => cases hlen
    | cons t ts =>
      have hl := hline l (List.mem_cons_self l ls)
      have ht := hterm t (List.mem_cons_self t ts)
      have hsplit : getlineSplit (joinChunks (l :: ls) (t :: ts)) =
          (l ++ t) :: getlineSplit (joinChunks ls ts) := by
        rcases ht with rfl | rfl
        · rw [joinChunks]
          exact getlineSplit_chunk l _ hl.1
        · rw [joinChunks]
          rw [show l ++ ['\r', '\n'] = (l ++ ['\r']) ++ ['\n'] by simp]
          rw [getlineSplit_chunk (l ++ ['\r']) _ (by
            intro hmem
            rcases List.mem_append.mp hmem with hmem | hmem
            · exact hl.1 hmem
            · simp at hmem)]
      rw [hsplit, List.map_cons]
      have hstrip : stripCrNl (l ++ t) = l := by
        rcases ht with rfl | rfl
        · exact stripCrNl_chunk l _ (by intro c hc; simp at hc; simp [hc]) hl.1 hl.2
        · exact stripCrNl_chunk l _ (by
            intro c hc
            simp at hc
            rcases hc with rfl | rfl <;> simp) hl.1 hl.2
      rw [hstrip, ih ts (by simpa using hlen)
        (fun x hx => hline x (List.mem_cons_of_mem l hx))
        (fun x hx => hterm x (List.mem_cons_of_mem t hx))]

theorem updateRowAt_map_chars (ts : Nat) (syn : Option SyntaxDef) (nr : Nat)
    (rows : List Erow) (pos : Nat) :
    (editorUpdateRowAt ts syn nr rows pos).map Erow.chars = rows.map Erow.chars := by
  apply List.ext_getElem?_iff.mpr
  intro k
  rw [List.getElem?_map, List.getElem?_map, updateRowAt_chars]

theorem insertRow_append_chars (ts : Nat) (st : EditorState) (l : List Char) :
    (editorInsertRow ts st (st.rows.length : Int) l).rows.map Erow.chars =
      st.rows.map Erow.chars ++ [l] := by
  unfold editorInsertRow
  rw [if_neg (by simp)]
  dsimp only
  rw [Int.toNat_natCast, updateRowAt_map_chars]
  rw [List.take_length, List.drop_length]
  simp

theorem rowsToString_eq_joinNl (rows : List Erow) :
    editorRowsToString rows = joinNl (rows.map Erow.chars) := by
  induction rows with
  | nil => rfl
  | cons r rest ih => rw [editorRowsToString, List.map_cons, joinNl, ih]

theorem editorOpen_chars (ts : Nat) (filename content : List Char)
    (registry : List SyntaxDef) :
    (editorOpen ts filename content registry).rows.map Erow.chars =
      (getlineSplit content).map stripCrNl := by
  unfold editorOpen
  dsimp only
  have hgen : ∀ (lines : List (List Char)) (st : EditorState),
      ((lines.foldl (fun st l => editorInsertRow ts st (st.rows.length : Int) l)
        st)).rows.map Erow.chars = st.rows.map Erow.chars ++ lines := by
    intro lines
    induction lines with
    | nil => intro st; simp
    | cons l rest ih =>
      intro st
      rw [List.foldl_cons, ih, insertRow_append_chars]
      simp
  rw [hgen]
  simp

/-- C7: loading a file whose lines end in `\n` or `\r\n` and serializing
reproduces the content with normalized line endings: each raw line
followed by exactly one `\n`, in order, with no trailing-newline
suppression. -/
theorem C7_load_serialize_round_trip (ts : Nat) (filename : List Char)
    (lines terms : List (List Char))
    (hlen : terms.length = lines.length)
    (hline : ∀ l ∈ lines, '\n' ∉ l ∧ l.getLast? ≠ some '\r')
    (hterm : ∀ t ∈ terms, t = ['\n'] ∨ t = ['\r', '\n']) :
    editorRowsToString (editorOpen ts filename (joinChunks lines terms) HLDB).rows =
      joinNl lines := by
  rw [rowsToString_eq_joinNl, editorOpen_chars,
    split_strip lines terms hlen hline hterm]

/-- Witness for C7: the file `"ab\r\n\nc\n"` loads and serializes to
`"ab\n\nc\n"`. -/
theorem C7_load_serialize_round_trip_witness :
    editorRowsToString (editorOpen 4 ("t.txt".toList)
      (joinChunks ["ab".toList, [], "c".toList] [['\r', '\n'], ['\n'], ['\n']]) HLDB).rows =
      joinNl ["ab".toList, [], "c".toList] := by
  exact C7_load_serialize_round_trip 4 ("t.txt".toList)
    ["ab".toList, [], "c".toList] [['\r', '\n'], ['\n'], ['\n']]
    (by decide) (by decide) (by decide)

/-- A successful `findScan` returns the row stored at the returned
position, whose render string contains the query at the returned
index. -/
theorem findScan_spec (rows : List Erow) (query : List Char) (dir : Int) :
    ∀ (fuel : Nat) (cur : Int) (c : Int) (m : Nat) (row : Erow),
      findScan rows query dir fuel cur = some (c, m, row) →
      rows[c.toNat]? = some row ∧ strstrIdx row.render query = some m := by
  intro fuel
  induction fuel with
  | zero => intro cur c m row h; cases h
  | succ n ih =>
    intro cur c m row h
    simp only [findScan] at h
    split at h
    · cases h
    · rename_i row' heq
      split at h
      · rename_i mIdx heq2
        injection h with h1
        injection h1 with hc hrest
        injection hrest with hm hrow
        subst hc
        subst hm
        subst hrow
        exact ⟨heq, heq2⟩
      · exact ih _ c m row h

/-- Copying back a saved prefix restores the original array when both
arrays have the saved length. -/
theorem memcpyPfx_restore (newHl oldHl : List EHighlight) (n : Nat)
    (hnew : newHl.length = n) (hold : oldHl.length = n) :
    memcpyPfx newHl (oldHl.take n) n = oldHl := by
  unfold memcpyPfx
  rw [show newHl.drop n = [] from by rw [← hnew, List.drop_length]]
  rw [show (oldHl.take n).take n = oldHl.take n from by rw [List.take_take]; simp]
  rw [← hold, List.take_length]
  simp

/-- After a match overrides a row, the copy-back at the head of the next
callback restores that row exactly. -/
theorem restore_facts (ts : Nat) (st : EditorState) (g : FindState) (query : List Char)
    (hOk : HlOk st.rows) (current : Int) (mIdx : Nat) (row : Erow)
    (hrow : st.rows[current.toNat]? = some row) :
    (findRestore
      ({ st with rows := st.rows.set current.toNat ({ row with hl := setRange row.hl mIdx query.length HL_MATCH }), cy := current.toNat, cx := editorRowRxToCx ts row.chars mIdx, rowoff := st.rows.length })
      ({ g with last_match := current, saved_hl_line := current.toNat, saved_hl := some (row.hl.take row.render.length) })).1.rows[current.toNat]? = some row := by
  obtain ⟨hlt, _⟩ := List.getElem?_eq_some_iff.mp hrow
  have hold : row.hl.length = row.render.length := hOk _ _ hrow
  unfold findRestore
  dsimp only
  rw [List.getElem?_set_self (by simpa using hlt)]
  dsimp only
  rw [List.set_set]
  rw [List.getElem?_set_self (by simpa using hlt)]
  have hcp : memcpyPfx (setRange row.hl mIdx query.length HL_MATCH)
      (row.hl.take row.render.length) row.render.length = row.hl := by
    exact memcpyPfx_restore _ _ _ (by rw [setRange_length, hold]) hold
  rw [hcp]


/-- Ending the session (Enter or Escape) right after a match also
restores the overridden row exactly. -/
theorem restore_facts_end (ts : Nat) (st : EditorState) (g : FindState) (query : List Char)
    (hOk : HlOk st.rows) (current : Int) (mIdx : Nat) (row : Erow)
    (hrow : st.rows[current.toNat]? = some row) (q' : List Char) (key' : Nat)
    (hk : key' = 13 ∨ key' = 27) :
    ((editorFindCallback ts
      ({ st with rows := st.rows.set current.toNat ({ row with hl := setRange row.hl mIdx query.length HL_MATCH }), cy := current.toNat, cx := editorRowRxToCx ts row.chars mIdx, rowoff := st.rows.length })
      ({ g with last_match := current, saved_hl_line := current.toNat, saved_hl := some (row.hl.take row.render.length) })
      q' key').1.rows[current.toNat]?) = some row := by
  unfold editorFindCallback
  dsimp only
  rw [if_pos (by rcases hk with rfl | rfl <;> simp)]
  exact restore_facts ts st g query hOk current mIdx row hrow

/-- C8: a search override is fully reversible: when a callback run from
a clean save slot overrides a matched row, the copy-back at the start of
the next callback — and a session-ending Enter or Escape — leave that
row's highlight array byte-for-byte equal to its pre-search contents. -/
theorem C8_search_restore (ts : Nat) (st : EditorState) (fs : FindState)
    (query : List Char) (key : Nat)
    (hOk : HlOk st.rows) (hsaved : fs.saved_hl = none)
    (st1 : EditorState) (fs1 : FindState)
    (hrun : editorFindCallback ts st fs query key = (st1, fs1))
    (saved : List EHighlight) (hsome : fs1.saved_hl = some saved) :
    ((findRestore st1 fs1).1.rows[fs1.saved_hl_line]?).map Erow.hl =
      (st.rows[fs1.saved_hl_line]?).map Erow.hl ∧
    (∀ (q' : List Char) (key' : Nat), key' = 13 ∨ key' = 27 →
      ((editorFindCallback ts st1 fs1 q' key').1.rows[fs1.saved_hl_line]?).map Erow.hl =
        (st.rows[fs1.saved_hl_line]?).map Erow.hl) := by
  unfold editorFindCallback at hrun
  rw [show findRestore st fs = (st, fs) from by unfold findRestore; rw [hsaved]] at hrun
  dsimp only at hrun
  by_cases hk : (key == 13 || key == 27) = true
  · rw [if_pos hk] at hrun
    injection hrun with h1 h2
    rw [← h2] at hsome
    simp [hsaved] at hsome
  · rw [if_neg hk] at hrun
    split at hrun
    · injection hrun with h1 h2
      rw [← h2] at hsome
      repeat' split at hsome
      all_goals (dsimp only at hsome; rw [hsaved] at hsome; cases hsome)
    · rename_i heq
      obtain ⟨hrow, -⟩ := findScan_spec st.rows query _ _ _ _ _ _ heq
      injection hrun with h1 h2
      subst h1
      subst h2
      dsimp only
      constructor
      · rw [restore_facts ts st _ query hOk _ _ _ hrow, hrow]
      · intro q' key' hk'
        rw [restore_facts_end ts st _ query hOk _ _ _ hrow q' key' hk', hrow]


/-- The initial values of `editorFindCallback`'s static locals. -/
def wFs : FindState :=
  { last_match := -1, direction := 1, saved_hl_line := 0, saved_hl := none }

/-- Witness for C8: searching `"a"` in the one-row buffer overrides row 0
and the next restore brings its highlight back. -/
theorem C8_search_restore_witness :
    ((findRestore (editorFindCallback 4 wSt wFs ("a".toList) 97).1
        (editorFindCallback 4 wSt wFs ("a".toList) 97).2).1.rows[(editorFindCallback 4 wSt
        wFs ("a".toList) 97).2.saved_hl_line]?).map Erow.hl =
      (wSt.rows[(editorFindCallback 4 wSt wFs ("a".toList) 97).2.saved_hl_line]?).map
        Erow.hl := by
  have h := C8_search_restore 4 wSt wFs ("a".toList) 97 wSt_hlOk rfl
    (editorFindCallback 4 wSt wFs ("a".toList) 97).1
    (editorFindCallback 4 wSt wFs ("a".toList) 97).2 rfl
    [HL_NORMAL, HL_NORMAL] (by decide)
  exact h.1

/-- Setting a row without changing its `idx` preserves the position
invariant. -/
theorem idxOk_set (rows : List Erow) (pos : Nat) (row row' : Erow)
    (hrow : rows[pos]? = some row) (hidx : row'.idx = row.idx) (h : IdxOk rows) :
    IdxOk (rows.set pos row') := by
  intro k r hr
  by_cases hk : pos = k
  · subst hk
    obtain ⟨hlt, _⟩ := List.getElem?_eq_some_iff.mp hrow
    rw [List.getElem?_set_self hlt] at hr
    cases hr
    rw [hidx]
    exact h pos row hrow
  · rw [List.getElem?_set_ne hk] at hr
    exact h k r hr

/-- Under the index invariant the cascade result does not depend on the
fuel bound, as long as the fuel covers the remaining rows. -/
theorem updateSyntaxGo_fuel (syn : Option SyntaxDef) (nr : Nat) :
    ∀ (d f1 f2 : Nat) (rows : List Erow) (pos : Nat), IdxOk rows →
      rows.length - pos = d → d ≤ f1 → d ≤ f2 →
      updateSyntaxGo syn nr f1 rows pos = updateSyntaxGo syn nr f2 rows pos := by
  intro d
  induction d with
  | zero =>
    intro f1 f2 rows pos hIdx hd h1 h2
    have hnone : rows[pos]? = none := List.getElem?_eq_none_iff.mpr (by omega)
    cases f1 <;> cases f2 <;> simp [updateSyntaxGo, hnone]
  | succ n ih =>
    intro f1 f2 rows pos hIdx hd h1 h2
    cases f1 with
    | zero => omega
    | succ f1' =>
      cases f2 with
      | zero => omega
      | succ f2' =>
        cases hrows : rows[pos]? with
        | none => simp [updateSyntaxGo, hrows]
        | some row =>
          cases syn with
          | none => simp [updateSyntaxGo, hrows]
          | some sd =>
            simp only [updateSyntaxGo, hrows]
            have hposlt : pos < rows.length := (List.getElem?_eq_some_iff.mp hrows).1
            have hposidx : row.idx = pos := hIdx pos row hrows
            split
            · apply ih f1' f2'
              · exact idxOk_set rows pos row _ hrows rfl hIdx
              · rw [List.length_set, hposidx]
                omega
              · omega
              · omega
            · rfl

/-- A minimal syntax with only the C-style comment markers, as in the
spec's propagation example. -/
def mlSyn : SyntaxDef :=
  { filetype := [], filematch := [], keywords := [],
    scs := "//".toList, mcs := "/*".toList, mce := "*/".toList, flags := 0 }

/-- The steady highlight state of the document
`["/* c", "x */ y", "z"]` under `mlSyn`. -/
def exRow0 : Erow :=
  { idx := 0, chars := "/* c".toList, render := "/* c".toList,
    hl := [HL_MLCOMMENT, HL_MLCOMMENT, HL_MLCOMMENT, HL_MLCOMMENT], hl_open_comment := true }

def exRow1 : Erow :=
  { idx := 1, chars := "x */ y".toList, render := "x */ y".toList,
    hl := [HL_MLCOMMENT, HL_MLCOMMENT, HL_MLCOMMENT, HL_MLCOMMENT, HL_NORMAL, HL_NORMAL],
    hl_open_comment := false }

def exRow2 : Erow :=
  { idx := 2, chars := "z".toList, render := "z".toList,
    hl := [HL_NORMAL], hl_open_comment := false }

def exSt : EditorState :=
  { rows := [exRow0, exRow1, exRow2], dirty := 0, cx := 0, cy := 0, rowoff := 0,
    syn := some mlSyn }

/-- The carried-out open-comment flag a recompute of `row` produces. -/
def carriedOut (sd : SyntaxDef) (rows : List Erow) (row : Erow) : Bool :=
  (scanRow sd (decide (row.idx > 0) && prevFlag rows row.idx) row.render).2

/-- The row value a recompute of `row` writes back. -/
def recomputedRow (sd : SyntaxDef) (rows : List Erow) (row : Erow) : Erow :=
  { row with hl := (scanRow sd (decide (row.idx > 0) && prevFlag rows row.idx) row.render).1, hl_open_comment := carriedOut sd rows row }

/-- C1: when `editorUpdateSyntax` recomputes row `pos`, an unchanged
carried-out flag stops the cascade (only row `pos` is written), while a
changed flag with an existing next row recurses into row `pos + 1`,
cascading down the document; concretely, deleting the `/` of the close
marker on row 1 of the steady example forces row 2 to become fully
comment-highlighted even though row 2's raw content never changed. -/
theorem C1_comment_propagation :
    (∀ (sd : SyntaxDef) (rows : List Erow) (pos : Nat) (row : Erow),
      rows[pos]? = some row → IdxOk rows →
      (carriedOut sd rows row = row.hl_open_comment →
        editorUpdateSyntax (some sd) rows pos = rows.set pos (recomputedRow sd rows row)) ∧
      (carriedOut sd rows row ≠ row.hl_open_comment → row.idx + 1 < rows.length →
        editorUpdateSyntax (some sd) rows pos =
          editorUpdateSyntax (some sd) (rows.set pos (recomputedRow sd rows row))
            (row.idx + 1))) ∧
    editorUpdateSyntax (some mlSyn) exSt.rows 0 = exSt.rows ∧
    ((editorRowDelChar 4 exSt 1 3).rows[2]?).map Erow.hl = some [HL_MLCOMMENT] ∧
    ((editorRowDelChar 4 exSt 1 3).rows[2]?).map Erow.chars = some ("z".toList) ∧
    ((editorRowDelChar 4 exSt 1 3).rows[1]?).map Erow.hl_open_comment = some true := by
  refine ⟨?_, by decide, by decide, by decide, by decide⟩
  intro sd rows pos row hrow hIdx
  have hposidx : row.idx = pos := hIdx pos row hrow
  have hposlt : pos < rows.length := (List.getElem?_eq_some_iff.mp hrow).1
  constructor
  · intro hsame
    unfold editorUpdateSyntax
    rw [updateSyntaxGo]
    rw [hrow]
    dsimp only
    rw [show (row.hl_open_comment !=
        (scanRow sd (decide (row.idx > 0) && prevFlag rows row.idx) row.render).2) = false
      from by rw [show (scanRow sd (decide (row.idx > 0) && prevFlag rows row.idx)
        row.render).2 = row.hl_open_comment from hsame]; exact bne_self_eq_false _]
    rw [Bool.false_and, if_neg (by simp)]
    rfl
  · intro hdiff hlt
    unfold editorUpdateSyntax
    conv_lhs => rw [updateSyntaxGo]
    rw [hrow]
    dsimp only
    rw [if_pos (by
      rw [Bool.and_eq_true]
      exact ⟨bne_iff_ne.mpr (fun hx => hdiff hx.symm), by simpa using hlt⟩)]
    rw [List.length_set]
    apply updateSyntaxGo_fuel (some sd) rows.length (rows.length - (row.idx + 1))
    · exact idxOk_set rows pos row _ hrow rfl hIdx
    · rw [List.length_set]
    · omega
    · omega

/-- Row 1 right after its close marker lost the `/` (the state on which
the changed-flag recompute runs). -/
def exRow1x : Erow :=
  { idx := 1, chars := "x * y".toList, render := "x * y".toList,
    hl := [HL_MLCOMMENT, HL_MLCOMMENT, HL_MLCOMMENT, HL_NORMAL, HL_NORMAL],
    hl_open_comment := false }

def exStx : EditorState :=
  { rows := [exRow0, exRow1x, exRow2], dirty := 0, cx := 0, cy := 0, rowoff := 0,
    syn := some mlSyn }

theorem exSt_idxOk : IdxOk exSt.rows := by
  intro k r hr
  match k with
  | 0 => injection hr with h; rw [← h]; rfl
  | 1 => injection hr with h; rw [← h]; rfl
  | 2 => injection hr with h; rw [← h]; rfl
  | n + 3 => cases hr

theorem exStx_idxOk : IdxOk exStx.rows := by
  intro k r hr
  match k with
  | 0 => injection hr with h; rw [← h]; rfl
  | 1 => injection hr with h; rw [← h]; rfl
  | 2 => injection hr with h; rw [← h]; rfl
  | n + 3 => cases hr

/-- Witness for C1: the unchanged-flag case on the steady example's row
0 and the changed-flag cascade on the edited row 1. -/
theorem C1_comment_propagation_witness :
    editorUpdateSyntax (some mlSyn) exSt.rows 0 =
      exSt.rows.set 0 (recomputedRow mlSyn exSt.rows exRow0) ∧
    editorUpdateSyntax (some mlSyn) exStx.rows 1 =
      editorUpdateSyntax (some mlSyn)
        (exStx.rows.set 1 (recomputedRow mlSyn exStx.rows exRow1x)) 2 := by
  have h := C1_comment_propagation.1
  exact ⟨(h mlSyn exSt.rows 0 exRow0 rfl exSt_idxOk).1 (by decide),
    (h mlSyn exStx.rows 1 exRow1x rfl exStx_idxOk).2 (by decide) (by decide)⟩
end Vine
